import Mathlib

/-!
# dnssec-stats: a verification development

Shallow embedding of `dnssec-stats.go` (the retrying resolver client `dig`, the
signature parser `rrsig`, the per-entry body of `worker`, the collection loop of
`work` and the statistics of `printStats`) together with theorems about them.

Go strings are modelled as `String` / `List Char`, Go `int` as `Int`.
-/

namespace DnssecStats

/-! ## Regular expressions (Go `regexp`, leftmost-first semantics) -/

/-- Regular expression syntax, restricted to the constructs that occur in the
pattern of `rrsig`.  Capture groups carry their index explicitly. -/
inductive Re where
  | chr (p : Char → Bool)
  | bol
  | wordb
  | seq (a b : Re)
  | opt (a : Re)
  | star (a : Re)
  | group (i : Nat) (a : Re)

/-- Matcher state: the character just before the cursor (if any), the text that
is still unread, and the capture groups closed so far (most recent first). -/
structure St where
  prev : Option Char
  rest : List Char
  caps : List (Nat × List Char)
deriving DecidableEq

/-- Class `\d` of Go regexps: ASCII digits. -/
def isDigit (c : Char) : Bool := decide (48 ≤ c.toNat) && decide (c.toNat ≤ 57)

/-- Class `[a-z]`. -/
def isLower (c : Char) : Bool := decide (97 ≤ c.toNat) && decide (c.toNat ≤ 122)

/-- Class `[A-Z]`. -/
def isUpper (c : Char) : Bool := decide (65 ≤ c.toNat) && decide (c.toNat ≤ 90)

/-- Class `[a-z0-9]`. -/
def isLowerAlnum (c : Char) : Bool := isLower c || isDigit c

/-- Class `\w` of Go regexps: `[0-9A-Za-z_]`. -/
def isWord (c : Char) : Bool := isDigit c || isUpper c || isLower c || decide (c.toNat = 95)

/-- Class `\s` of Go regexps: `[\t\n\f\r ]`. -/
def isSpace (c : Char) : Bool :=
  decide (c.toNat = 9) || decide (c.toNat = 10) || decide (c.toNat = 12) ||
    decide (c.toNat = 13) || decide (c.toNat = 32)

/-- A literal character. -/
def isChar (a : Char) (c : Char) : Bool := decide (c.toNat = a.toNat)

/-- Whether the optional character is a word character (`false` at either end
of the text). -/
def wordAt : Option Char → Bool
  | none => false
  | some c => isWord c

/-- Greedy iteration of `step`: first every way of doing one more iteration
(which has to consume text) followed by further iterations, last the way that
stops here.  The fuel is an upper bound on the number of iterations. -/
def starAux (step : St → List St) : Nat → St → List St
  | 0, s => [s]
  | n + 1, s =>
    (((step s).filter fun m => decide (m.rest.length < s.rest.length)).flatMap
      (starAux step n)) ++ [s]

/-- All ways in which `re` matches at the cursor of `s`, as the states after the
match, in the order in which a backtracking search tries them (greedy operators
prefer the longer alternative).  The first element is the match that Go's
`regexp` reports for this start position. -/
def matchAll : Re → St → List St
  | .chr p, s =>
    match s.rest with
    | [] => []
    | c :: r => if p c then [{ prev := some c, rest := r, caps := s.caps }] else []
  | .bol, s =>
    match s.prev with
    | none => [s]
    | some c => if isChar '\n' c then [s] else []
  | .wordb, s => if wordAt s.prev != wordAt s.rest.head? then [s] else []
  | .seq a b, s => (matchAll a s).flatMap (matchAll b)
  | .opt a, s => matchAll a s ++ [s]
  | .star a, s => starAux (matchAll a) s.rest.length s
  | .group i a, s =>
    (matchAll a s).map fun m =>
      { m with caps := (i, s.rest.take (s.rest.length - m.rest.length)) :: m.caps }

/-- Concatenation of a list of expressions. -/
def Re.seqs : List Re → Re
  | [] => .opt (.chr fun _ => false)
  | [a] => a
  | a :: as => .seq a (Re.seqs as)

/-- Repetition `a+`. -/
def Re.plus (a : Re) : Re := .seq a (.star a)

/-- Repetition `a{2,}`. -/
def Re.atLeast2 (a : Re) : Re := .seq a (.seq a (.star a))

/-- A literal string. -/
def Re.lit (s : String) : Re := Re.seqs (s.toList.map fun c => Re.chr (isChar c))

/-- Leftmost search: the first start position at which `re` matches, and there
the first match in backtracking order. -/
def findFrom (re : Re) : Option Char → List Char → Option St
  | prev, [] => (matchAll re { prev := prev, rest := [], caps := [] }).head?
  | prev, c :: r =>
    match matchAll re { prev := prev, rest := c :: r, caps := [] } with
    | m :: _ => some m
    | [] => findFrom re (some c) r

/-- Text of capture group `i` (the last time the group took part in the match);
empty when the group did not take part, as in `FindStringSubmatch`. -/
def capture (caps : List (Nat × List Char)) (i : Nat) : String :=
  match caps.lookup i with
  | some t => String.mk t
  | none => ""

/-- One label of an owner name with its dot: `(xn--)?[a-z0-9]+(-[a-z0-9]+)*\.` -/
def labelRe : Re :=
  Re.seqs [
    .opt (.group 2 (Re.lit "xn--")),
    Re.plus (.chr isLowerAlnum),
    .star (.group 3 (.seq (.chr (isChar '-')) (Re.plus (.chr isLowerAlnum)))),
    .chr (isChar '.')]

/-- Owner name: `((xn--)?[a-z0-9]+(-[a-z0-9]+)*\.)+[a-z]{2,}\b\.` -/
def ownerRe : Re :=
  Re.seqs [
    Re.plus (.group 1 labelRe),
    Re.atLeast2 (.chr isLower),
    .wordb,
    .chr (isChar '.')]

/-- The body of the signer group: `\w*\.+[a-z]{2,}\b\.` -/
def signerBodyRe : Re :=
  Re.seqs [
    .star (.chr isWord),
    Re.plus (.chr (isChar '.')),
    Re.atLeast2 (.chr isLower),
    .wordb,
    .chr (isChar '.')]

/-- Signer name: `(\w*\.+[a-z]{2,}\b\.)+` -/
def signerRe : Re := Re.plus (.group 11 signerBodyRe)

/-- Blanks followed by one token: `\s+` and then `a`. -/
def fieldRe (a : Re) : Re := .seq (Re.plus (.chr isSpace)) a

/-- A numeric field as capture group `i`: `(\d+)`. -/
def numRe (i : Nat) : Re := .group i (Re.plus (.chr isDigit))

/-- The pattern compiled in `rrsig`:
`(?m)^\b((xn--)?[a-z0-9]+(-[a-z0-9]+)*\.)+[a-z]{2,}\b\.\s+\d+\s+IN\s+RRSIG+\s+(\w)\s+(\d+)\s+(\d+)\s+(\d+)\s+(\d+)\s+(\d+)\s+(\d+)\s+(\w*\.+[a-z]{2,}\b\.)+\s+`,
read as the owner name, then ten tokens each preceded by `\s+`, then `\s+`. -/
def rrsigRe : Re :=
  Re.seqs [
    .bol, .wordb, ownerRe,
    fieldRe (Re.plus (.chr isDigit)),
    fieldRe (Re.lit "IN"),
    fieldRe (.seq (Re.lit "RRSI") (Re.plus (.chr (isChar 'G')))),
    fieldRe (.group 4 (.chr isWord)),
    fieldRe (numRe 5), fieldRe (numRe 6), fieldRe (numRe 7),
    fieldRe (numRe 8), fieldRe (numRe 9), fieldRe (numRe 10),
    fieldRe signerRe,
    Re.plus (.chr isSpace)]

/-- Go's `FindStringSubmatch` with the pattern of `rrsig`: the text of the first
match followed by the text of its eleven capture groups, or the empty slice when
nothing matches. -/
def findStringSubmatch (input : String) : List String :=
  match findFrom (.group 0 rrsigRe) none input.toList with
  | some m => (List.range 12).map fun i => capture m.caps i
  | none => []

/-- Function `rrsig`: whether the answer text holds a signature record, and the field
strings `fields[4:12]` of the first one. -/
def rrsig (input : String) : Bool × List String :=
  let fields := findStringSubmatch input
  if 12 ≤ fields.length then (true, (fields.drop 4).take 8) else (false, [])

/-! ## `strconv.Atoi` (Go standard library, 64-bit `int`) -/

/-- The two kinds of `*strconv.NumError`. -/
inductive NumErr where
  | invalid
  | range
deriving DecidableEq, Repr

/-- Width of Go's `int` on the modelled platform. -/
def intSize : Nat := 64

/-- Largest `uint64`. -/
def maxUint64 : Nat := 2 ^ 64 - 1

/-- The digit loop of `strconv.ParseUint(s, 10, 64)`, with the accumulator `n`
kept in 64 bits: a character that is no decimal digit is a syntax error with
value 0, an overflow is a range error with value `maxUint64`. -/
def parseUintLoop : List Char → Nat → Nat × Option NumErr
  | [], n => (n, none)
  | c :: cs, n =>
    if isDigit c then
      let d := c.toNat - 48
      if maxUint64 / 10 + 1 ≤ n then (maxUint64, some .range)
      else
        let n10 := (n * 10) % 2 ^ 64
        let n1 := (n10 + d) % 2 ^ 64
        if n1 < n10 ∨ maxUint64 < n1 then (maxUint64, some .range)
        else parseUintLoop cs n1
    else (0, some .invalid)

/-- Go's `strconv.ParseUint(s, 10, 64)`. -/
def parseUint (s : List Char) : Nat × Option NumErr :=
  match s with
  | [] => (0, some .invalid)
  | _ => parseUintLoop s 0

/-- Go's `strconv.ParseInt(s, 10, 0)`: a value out of range is clamped to the nearest
representable integer and reported as a range error. -/
def parseInt (s : List Char) : Int × Option NumErr :=
  match s with
  | [] => (0, some .invalid)
  | c :: cs =>
    let neg := isChar '-' c
    let body := if isChar '+' c || isChar '-' c then cs else s
    match parseUint body with
    | (_, some .invalid) => (0, some .invalid)
    | (un, _) =>
      let cutoff : Nat := 2 ^ (intSize - 1)
      if !neg && decide (cutoff ≤ un) then ((cutoff : Int) - 1, some .range)
      else if neg && decide (cutoff < un) then (-(cutoff : Int), some .range)
      else (if neg then -(un : Int) else (un : Int), none)

/-- The fast path of `strconv.Atoi` for short inputs: plain accumulation of the
digits after an optional sign. -/
def atoiFast (s : List Char) : Int × Option NumErr :=
  match s with
  | [] => (0, some .invalid)
  | c :: cs =>
    let body := if isChar '-' c || isChar '+' c then cs else s
    if body.length < 1 then (0, some .invalid)
    else if body.all isDigit then
      let n : Int := body.foldl (fun n ch => n * 10 + ((ch.toNat - 48 : Nat) : Int)) 0
      (if isChar '-' c then -n else n, none)
    else (0, some .invalid)

/-- Go's `strconv.Atoi`: the value and the error.  On a syntax error the value is 0;
on a range error it is the clamped value of `parseInt`. -/
def Atoi (s : String) : Int × Option NumErr :=
  if 0 < s.utf8ByteSize ∧ s.utf8ByteSize < 19 then atoiFast s.toList
  else parseInt s.toList

/-! ## Records and the worker -/

/-- The `Record` struct. -/
structure Record where
  Rank : Int
  Domain : String
  Support : Bool
  RType : String
  Alg : Int
  Label : Int
  Ttl : Int
  End : Int
  Start : Int
  Keytag : Int
  Signer : String
deriving DecidableEq, Repr

/-- One iteration of the loop of `worker` for the record `r`, where `answer` is
the text that `dig(r.Domain, 0)` returned: the record sent on the results
channel.  (`rrsig` returns eight fields whenever it reports a signature, so the
indices are in range.) -/
def worker (r : Record) (answer : String) : Record :=
  let (support, fields) := rrsig answer
  if support then
    { Rank := r.Rank, Domain := r.Domain, Support := support,
      RType := fields.getD 0 "",
      Alg := (Atoi (fields.getD 1 "")).1,
      Label := (Atoi (fields.getD 2 "")).1,
      Ttl := (Atoi (fields.getD 3 "")).1,
      End := (Atoi (fields.getD 4 "")).1,
      Start := (Atoi (fields.getD 5 "")).1,
      Keytag := (Atoi (fields.getD 6 "")).1,
      Signer := fields.getD 7 "" }
  else
    { Rank := r.Rank, Domain := r.Domain, Support := support,
      RType := "nil", Alg := 0, Label := 0, Ttl := 0, End := 0, Start := 0, Keytag := 0,
      Signer := "nil" }

/-! ## The resolver client `dig` -/

/-- The environment of `dig`: the result of `exec.LookPath("dig")` and, for
every domain, the outcome of the `n`-th run of the command since the start
(`some` standard output on success, `none` on error). -/
structure Env where
  lookPath : Option String
  run : String → Nat → Option String

/-- What `dig` has done so far: the number of command runs, the number of
one-second sleeps, and the attempt numbers printed by the diagnostic line
`Problem digging <domain> (attempt <n> of 10)`. -/
structure Trace where
  calls : Nat
  sleeps : Nat
  log : List Nat
deriving DecidableEq, Repr

/-- Function `dig(domain, attempts)`, started with the trace `t` of what was
done before: the returned text and the trace afterwards; `none` is the panic on
a missing binary. -/
def dig (env : Env) (domain : String) (attempts : Nat) (t : Trace) : Option (String × Trace) :=
  match env.lookPath with
  | none => none
  | some _ =>
    match env.run domain t.calls with
    | some out => some (out, { t with calls := t.calls + 1 })
    | none =>
      if attempts < 10 then
        dig env domain (attempts + 1)
          { calls := t.calls + 1, sleeps := t.sleeps + 1, log := t.log ++ [attempts + 1] }
      else
        some ("", { calls := t.calls + 1, sleeps := t.sleeps, log := t.log ++ [attempts + 1] })
termination_by 10 - attempts
decreasing_by omega

/-! ## The collection loop of `work` -/

/-- The zero value of `Record`, with which `make([]Record, n)` fills the slice. -/
def zeroRecord : Record :=
  { Rank := 0, Domain := "", Support := false, RType := "", Alg := 0, Label := 0, Ttl := 0,
    End := 0, Start := 0, Keytag := 0, Signer := "" }

/-- The records that the workers send for the input `records`, in input order:
entry `i` probed once, `answer i` being the text `dig` returned for it. -/
def jobResults (records : List Record) (answer : Nat → String) : List Record :=
  records.mapIdx fun i r => worker r (answer i)

/-- The loop `for j := range results { result := <-job_results; results[j] = result }`
from index `j` on, `k` iterations, with the channel contents `chan` in arrival
order; `none` when the channel runs dry (the receive blocks forever). -/
def collect : Nat → Nat → List Record → List Record → Option (List Record)
  | 0, _, _, results => some results
  | _ + 1, _, [], _ => none
  | k + 1, j, x :: chan, results => collect k (j + 1) chan (results.set j x)

/-- The slice `results` that `work` hands to `writeToCsv` and `printStats`, for
the input `records` and the sequence `arrivals` of records received from the
results channel. -/
def work (records : List Record) (arrivals : List Record) : Option (List Record) :=
  collect records.length 0 arrivals (List.replicate records.length zeroRecord)

/-! ## `printStats` and `float64` -/

/-- Values of `float64` (the sign of zero is not tracked). -/
inductive F64 where
  | nan
  | inf (neg : Bool)
  | num (q : ℚ)
deriving DecidableEq

namespace F64

/-- Rounding of a positive magnitude to 53 significant bits (or to a multiple
of 2^-1074 for subnormal results), ties to even. -/
def roundMag (a : ℚ) : ℚ :=
  let e : ℤ := max (Int.log 2 a - 52) (-1074)
  let m : ℚ := a / (2 : ℚ) ^ e
  let f : ℤ := ⌊m⌋
  let r : ℤ :=
    if m - f < 1 / 2 then f else if 1 / 2 < m - f then f + 1 else if f % 2 = 0 then f else f + 1
  r * (2 : ℚ) ^ e

/-- Rounding of an exact value to the nearest `float64`, ties to even. -/
def round (q : ℚ) : F64 :=
  if q = 0 then .num 0
  else if (2 : ℚ) ^ (1024 : ℕ) ≤ roundMag |q| then .inf (decide (q < 0))
  else .num (if q < 0 then -roundMag |q| else roundMag |q|)

/-- Conversion `float64(n)` of a non-negative `int`. -/
def ofNat (n : Nat) : F64 := round n

/-- Division of `float64` values (IEEE 754). -/
def div : F64 → F64 → F64
  | .num a, .num b =>
    if b = 0 then (if a = 0 then .nan else .inf (decide (a < 0))) else round (a / b)
  | .num _, .inf _ => .num 0
  | .inf s, .num b => .inf (s != decide (b < 0))
  | _, _ => .nan

/-- Multiplication of `float64` values (IEEE 754). -/
def mul : F64 → F64 → F64
  | .num a, .num b => round (a * b)
  | .inf s, .num b => if b = 0 then .nan else .inf (s != decide (b < 0))
  | .num a, .inf s => if a = 0 then .nan else .inf (s != decide (a < 0))
  | .inf s, .inf t => .inf (s != t)
  | _, _ => .nan

end F64

/-- The counting loop of `printStats`. -/
def countSupported : List Record → Nat → Nat
  | [], supported => supported
  | r :: rs, supported => countSupported rs (if r.Support then supported + 1 else supported)

/-- What `printStats` prints. -/
structure Stats where
  total : Nat
  supported : Nat
  rate : F64

/-- Function `printStats`: `total`, `supported` and
`rate := float64(supported) / float64(total) * 100`. -/
def printStats (results : List Record) : Stats :=
  let total := results.length
  let supported := countSupported results 0
  { total := total, supported := supported,
    rate := F64.mul (F64.div (F64.ofNat supported) (F64.ofNat total)) (F64.ofNat 100) }

/-- An environment in which the binary exists and every run fails. -/
def failingEnv : Env := { lookPath := some "/usr/bin/dig", run := fun _ _ => none }

/-- An environment in which the first three runs fail and the fourth succeeds. -/
def flakyEnv : Env :=
  { lookPath := some "/usr/bin/dig", run := fun _ n => if n < 3 then none else some "answer" }

/-- Three results, one of them with a signature. -/
def threeResults : List Record :=
  [{ zeroRecord with Rank := 1, Support := true }, { zeroRecord with Rank := 2 },
   { zeroRecord with Rank := 3 }]

/-- Every character class of the expression accepts only characters that
satisfy `P`. -/
def Re.only (P : Char → Prop) : Re → Prop
  | .chr p => ∀ c, p c = true → P c
  | .bol => True
  | .wordb => True
  | .seq a b => Re.only P a ∧ Re.only P b
  | .opt a => Re.only P a
  | .star a => Re.only P a
  | .group _ a => Re.only P a

/-- The indices of the capture groups of the expression. -/
def Re.groups : Re → List Nat
  | .chr _ => []
  | .bol => []
  | .wordb => []
  | .seq a b => Re.groups a ++ Re.groups b
  | .opt a => Re.groups a
  | .star a => Re.groups a
  | .group i a => i :: Re.groups a

/-- A signature line whose algorithm field does not fit the `int` type. -/
def overflowLine : String :=
  "example.com. 3600 IN RRSIG A 99999999999999999999 2 3600 20300101000000 20300001000000 12345 example.com. AbCd=="

/-! ### The documented shape of a signature line -/

/-- A non-empty run of characters from `[a-z0-9]`. -/
def goodRun (run : List Char) : Bool := !run.isEmpty && run.all isLowerAlnum

/-- A label: one or more runs, written joined by single hyphens. -/
def goodLabel (runs : List (List Char)) : Bool := !runs.isEmpty && runs.all goodRun

/-- One or more labels. -/
def goodLabels (labels : List (List (List Char))) : Bool :=
  !labels.isEmpty && labels.all goodLabel

/-- A top-level label: two or more lowercase letters. -/
def goodTld (tld : List Char) : Bool := decide (2 ≤ tld.length) && tld.all isLower

/-- A non-empty string of decimal digits. -/
def goodNumber (ds : List Char) : Bool := !ds.isEmpty && ds.all isDigit

/-- The text of a label: its runs joined by hyphens. -/
def labelText : List (List Char) → List Char
  | [] => []
  | run :: runs => run ++ (runs.map fun r => '-' :: r).flatten

/-- The text of the labels of a name, each followed by a dot. -/
def labelsText (labels : List (List (List Char))) : List Char :=
  (labels.map fun l => labelText l ++ ['.']).flatten

/-- The text of a fully-qualified name: the labels, the top-level label and
the trailing dot. -/
def nameText (labels : List (List (List Char))) (tld : List Char) : List Char :=
  labelsText labels ++ (tld ++ ['.'])

/-- The text of a signer name of two labels, `<label>.<tld>.` -/
def signerText (label tld : List Char) : List Char := label ++ '.' :: (tld ++ ['.'])

/-- The characters of the line
`<owner> <ttl> IN RRSIG <tc> <alg> <labels> <ottl> <exp> <inc> <tag> <signer> <sigdata>`
with single blanks between the tokens. -/
def lineText (owner ttl : List Char) (tc : Char) (alg lbl ottl exp inc tag signer sig : List Char) :
    List Char :=
  owner ++ ' ' :: (ttl ++ ' ' :: (['I', 'N'] ++ ' ' :: (['R', 'R', 'S', 'I', 'G'] ++ ' ' ::
    ([tc] ++ ' ' :: (alg ++ ' ' :: (lbl ++ ' ' :: (ottl ++ ' ' :: (exp ++ ' ' ::
      (inc ++ ' ' :: (tag ++ ' ' :: (signer ++ ' ' :: sig)))))))))))

/-- The character before the cursor after reading `pre`, when it was `p`
before. -/
def endPrev : Option Char → List Char → Option Char
  | p, [] => p
  | _, c :: cs => endPrev (some c) cs

/-- The expression has a match that reads exactly `pre` when the unread text is
`pre ++ r` and the character before the cursor is `p`. -/
def Steps (re : Re) (p : Option Char) (pre r : List Char) : Prop :=
  ∀ caps, ∃ m, m ∈ matchAll re { prev := p, rest := pre ++ r, caps := caps } ∧
    m.prev = endPrev p pre ∧ m.rest = r

/-- Two input entries, used to exhibit an arrival order that differs from the
input order. -/
def twoEntries : List Record :=
  [{ zeroRecord with Rank := 1, Domain := "first.example" },
   { zeroRecord with Rank := 2, Domain := "second.example" }]

/-! ## The worker pool of `work` as a transition system -/

/-- One atomic step of the goroutines of `work`: the main goroutine sends the
next record on `jobs`; an idle worker receives a record from `jobs`; the worker
holding the `k`-th probe in flight finishes it and sends its record on
`job_results`; the main goroutine receives from `job_results` and stores the
record at `results[j]`. -/
inductive Action where
  | submit
  | take
  | finish (k : Nat)
  | receive
deriving DecidableEq, Repr

/-- The state of `work` between two steps: the input entries the main goroutine
has still to send (each with its input position), the contents of the channel
`jobs`, the entries that workers have received and are probing, the contents
of the channel `job_results`, and the index `j` and the slice `results` of the
collection loop. -/
structure WorkState where
  pending : List (Nat × Record)
  jobs : List (Nat × Record)
  inflight : List (Nat × Record)
  job_results : List Record
  j : Nat
  results : List Record
deriving DecidableEq

/-- The state of `work` after `readCsv`, the two `make(chan ...)` and the start
of the workers: nothing sent yet, `results` filled with zero values. -/
def workInit (records : List Record) : WorkState :=
  { pending := records.enum, jobs := [], inflight := [], job_results := [], j := 0,
    results := List.replicate records.length zeroRecord }

/-- The record a worker sends for the entry at input position `x.1`. -/
def probe (answer : Nat → String) (x : Nat × Record) : Record := worker x.2 (answer x.1)

/-- One step of `work` with `workers` workers, `none` when the step cannot be
taken in the state: `jobs <- r` needs a record left to send; a worker's
`range records` needs a record in `jobs` and a worker that is not busy; a
worker's `results <- Record{...}` needs that probe to be in flight; the main
goroutine's `<-job_results` needs the sending loop to be over, `j` to be within
`results` and a record in `job_results`.  Both channels have room for every
record, so no send blocks. -/
def workStep (workers : Nat) (answer : Nat → String) : Action → WorkState → Option WorkState
  | .submit, s =>
    match s.pending with
    | [] => none
    | x :: p => some { s with pending := p, jobs := s.jobs ++ [x] }
  | .take, s =>
    match s.jobs with
    | [] => none
    | x :: js =>
      if s.inflight.length < workers then
        some { s with jobs := js, inflight := s.inflight ++ [x] }
      else none
  | .finish k, s =>
    match s.inflight.drop k with
    | [] => none
    | x :: rest =>
      some { s with inflight := s.inflight.take k ++ rest,
                    job_results := s.job_results ++ [probe answer x] }
  | .receive, s =>
    match s.pending, s.job_results with
    | [], x :: q =>
      if s.j < s.results.length then
        some { s with job_results := q, results := s.results.set s.j x, j := s.j + 1 }
      else none
    | _, _ => none

/-- A schedule run step by step, `none` when one of its steps cannot be taken. -/
def workRun (workers : Nat) (answer : Nat → String) : List Action → WorkState → Option WorkState
  | [], s => some s
  | a :: as, s =>
    match workStep workers answer a s with
    | none => none
    | some t => workRun workers answer as t

/-- The collection loop has filled `results`: `work` goes on to `writeToCsv`. -/
def workDone (s : WorkState) : Bool := s.pending.isEmpty && decide (s.j = s.results.length)

/-- The number of steps that are still to come: four per entry not yet sent,
three per entry in `jobs`, two per probe in flight, one per record in
`job_results`. -/
def stepsLeft (s : WorkState) : Nat :=
  4 * s.pending.length + 3 * s.jobs.length + 2 * s.inflight.length + s.job_results.length

/-- The records of a state, wherever they are: stored in `results`, waiting in
`job_results`, and the records that the entries in flight, in `jobs` and not
yet sent will give. -/
def recordsOf (answer : Nat → String) (s : WorkState) : Multiset Record :=
  (s.results.take s.j : Multiset Record) + (s.job_results : Multiset Record) +
    ((s.inflight.map (probe answer) : List Record) : Multiset Record) +
    ((s.jobs.map (probe answer) : List Record) : Multiset Record) +
    ((s.pending.map (probe answer) : List Record) : Multiset Record)

/-- A schedule for two entries and two workers in which the second probe
finishes first. -/
def twoSchedule : List Action :=
  [.submit, .submit, .take, .take, .finish 1, .finish 0, .receive, .receive]

/-! ## Basic facts about the matcher -/

theorem mem_matchAll_chr {p : Char → Bool} {s m : St} :
    m ∈ matchAll (.chr p) s ↔
      ∃ c r, s.rest = c :: r ∧ p c = true ∧ m = { prev := some c, rest := r, caps := s.caps } := by
  obtain ⟨pv, rest, caps⟩ := s
  cases rest with
  | nil => simp [matchAll]
  | cons c r =>
    by_cases h : p c = true
    · simp only [matchAll, h, if_true, List.mem_singleton]
      constructor
      · intro hm
        exact ⟨c, r, rfl, h, hm⟩
      · rintro ⟨c', r', hcr, -, hm⟩
        injection hcr with h1 h2
        subst h1 h2
        exact hm
    · simp only [matchAll, h]
      constructor
      · intro hm
        simp at hm
      · rintro ⟨c', r', hcr, hp, -⟩
        injection hcr with h1 h2
        subst h1 h2
        exact absurd hp h

theorem mem_matchAll_seq {a b : Re} {s m : St} :
    m ∈ matchAll (.seq a b) s ↔ ∃ x, x ∈ matchAll a s ∧ m ∈ matchAll b x := by
  simp [matchAll, List.mem_flatMap]

theorem mem_matchAll_opt {a : Re} {s m : St} :
    m ∈ matchAll (.opt a) s ↔ m ∈ matchAll a s ∨ m = s := by
  simp [matchAll]

theorem mem_matchAll_group {i : Nat} {a : Re} {s m : St} :
    m ∈ matchAll (.group i a) s ↔
      ∃ x, x ∈ matchAll a s ∧
        m = { x with caps := (i, s.rest.take (s.rest.length - x.rest.length)) :: x.caps } := by
  simp only [matchAll, List.mem_map]
  constructor
  · rintro ⟨x, hx, rfl⟩
    exact ⟨x, hx, rfl⟩
  · rintro ⟨x, hx, rfl⟩
    exact ⟨x, hx, rfl⟩

theorem eq_of_mem_matchAll_bol {s m : St} (h : m ∈ matchAll .bol s) : m = s := by
  obtain ⟨pv, rest, caps⟩ := s
  cases pv with
  | none => simpa [matchAll] using h
  | some c =>
    by_cases hc : isChar '\n' c = true
    · simpa [matchAll, hc] using h
    · simp [matchAll, hc] at h

theorem eq_of_mem_matchAll_wordb {s m : St} (h : m ∈ matchAll .wordb s) : m = s := by
  by_cases hc : (wordAt s.prev != wordAt s.rest.head?) = true
  · simpa [matchAll, hc] using h
  · simp [matchAll, hc] at h

/-- The fuel of `starAux` does not matter once it covers the unread text. -/
theorem starAux_fuel (step : St → List St) :
    ∀ (n k : Nat) (s : St), s.rest.length ≤ n → s.rest.length ≤ k →
      starAux step n s = starAux step k s := by
  intro n
  induction n with
  | zero =>
    intro k s hn _
    cases k with
    | zero => rfl
    | succ k =>
      have h0 : s.rest.length = 0 := by omega
      simp [starAux, h0]
  | succ n ih =>
    intro k s hn hk
    cases k with
    | zero =>
      have h0 : s.rest.length = 0 := by omega
      simp [starAux, h0]
    | succ k =>
      simp only [starAux]
      congr 1
      apply List.flatMap_congr
      intro x hx
      have hlt : x.rest.length < s.rest.length := by
        simpa using (List.mem_filter.mp hx).2
      exact ih k x (by omega) (by omega)

theorem mem_matchAll_star {a : Re} {s m : St} :
    m ∈ matchAll (.star a) s ↔
      (∃ x, x ∈ matchAll a s ∧ x.rest.length < s.rest.length ∧ m ∈ matchAll (.star a) x) ∨
        m = s := by
  simp only [matchAll]
  cases hlen : s.rest.length with
  | zero => simp [starAux, hlen]
  | succ n =>
    simp only [starAux, List.mem_append, List.mem_flatMap, List.mem_filter, List.mem_singleton,
      decide_eq_true_eq, hlen]
    constructor
    · rintro (⟨x, ⟨hx, hlt⟩, hm⟩ | h)
      · left
        refine ⟨x, hx, hlt, ?_⟩
        rw [starAux_fuel (matchAll a) x.rest.length n x (le_refl _) (by omega)]
        exact hm
      · right; exact h
    · rintro (⟨x, hx, hlt, hm⟩ | h)
      · left
        refine ⟨x, ⟨hx, hlt⟩, ?_⟩
        rw [starAux_fuel (matchAll a) n x.rest.length x (by omega) (le_refl _)]
        exact hm
      · right; exact h

theorem mem_starAux_induction {step : St → List St} {Q : St → St → Prop}
    (hrefl : ∀ s, Q s s)
    (hstep : ∀ s x m, x ∈ step s → Q x m → Q s m) :
    ∀ (n : Nat) (s m : St), m ∈ starAux step n s → Q s m := by
  intro n
  induction n with
  | zero =>
    intro s m h
    simp only [starAux, List.mem_singleton] at h
    subst h
    exact hrefl _
  | succ n ih =>
    intro s m h
    simp only [starAux, List.mem_append, List.mem_flatMap, List.mem_filter,
      List.mem_singleton] at h
    rcases h with ⟨x, ⟨hx, -⟩, hm⟩ | h
    · exact hstep s x m hx (ih x m hm)
    · subst h
      exact hrefl _

/-- What a match consumes is a prefix of the unread text, made of characters
that the classes of the expression accept. -/
theorem matchAll_consumes (P : Char → Prop) :
    ∀ (re : Re), re.only P → ∀ (s m : St), m ∈ matchAll re s →
      ∃ pre, s.rest = pre ++ m.rest ∧ ∀ c, c ∈ pre → P c := by
  intro re
  induction re with
  | chr p =>
    intro hP s m h
    obtain ⟨c, r, hs, hp, rfl⟩ := mem_matchAll_chr.mp h
    refine ⟨[c], by simpa using hs, ?_⟩
    intro c' hc'
    rw [List.mem_singleton] at hc'
    subst hc'
    exact hP _ hp
  | bol =>
    intro _ s m h
    rw [eq_of_mem_matchAll_bol h]
    exact ⟨[], rfl, by simp⟩
  | wordb =>
    intro _ s m h
    rw [eq_of_mem_matchAll_wordb h]
    exact ⟨[], rfl, by simp⟩
  | seq a b iha ihb =>
    intro hP s m h
    obtain ⟨x, hx, hm⟩ := mem_matchAll_seq.mp h
    obtain ⟨p1, h1, hp1⟩ := iha hP.1 s x hx
    obtain ⟨p2, h2, hp2⟩ := ihb hP.2 x m hm
    refine ⟨p1 ++ p2, by rw [h1, h2, List.append_assoc], ?_⟩
    intro c hc
    rcases List.mem_append.mp hc with hc | hc
    · exact hp1 c hc
    · exact hp2 c hc
  | opt a iha =>
    intro hP s m h
    rcases mem_matchAll_opt.mp h with h | h
    · exact iha hP s m h
    · subst h
      exact ⟨[], rfl, by simp⟩
  | star a iha =>
    intro hP s m h
    refine mem_starAux_induction
      (Q := fun s m => ∃ pre, s.rest = pre ++ m.rest ∧ ∀ c, c ∈ pre → P c)
      (fun s => ⟨[], rfl, by simp⟩) ?_ _ s m h
    intro s x m hx ⟨p2, h2, hp2⟩
    obtain ⟨p1, h1, hp1⟩ := iha hP s x hx
    refine ⟨p1 ++ p2, by rw [h1, h2, List.append_assoc], ?_⟩
    intro c hc
    rcases List.mem_append.mp hc with hc | hc
    · exact hp1 c hc
    · exact hp2 c hc
  | group i a iha =>
    intro hP s m h
    obtain ⟨x, hx, rfl⟩ := mem_matchAll_group.mp h
    exact iha hP s x hx

/-- A match leaves the capture groups that do not occur in the expression as
they were. -/
theorem matchAll_lookup (i : Nat) :
    ∀ (re : Re), i ∉ re.groups → ∀ (s m : St), m ∈ matchAll re s →
      m.caps.lookup i = s.caps.lookup i := by
  intro re
  induction re with
  | chr p =>
    intro _ s m h
    obtain ⟨c, r, -, -, rfl⟩ := mem_matchAll_chr.mp h
    rfl
  | bol =>
    intro _ s m h
    rw [eq_of_mem_matchAll_bol h]
  | wordb =>
    intro _ s m h
    rw [eq_of_mem_matchAll_wordb h]
  | seq a b iha ihb =>
    intro hi s m h
    simp only [Re.groups, List.mem_append, not_or] at hi
    obtain ⟨x, hx, hm⟩ := mem_matchAll_seq.mp h
    rw [ihb hi.2 x m hm, iha hi.1 s x hx]
  | opt a iha =>
    intro hi s m h
    rcases mem_matchAll_opt.mp h with h | h
    · exact iha hi s m h
    · rw [h]
  | star a iha =>
    intro hi s m h
    refine mem_starAux_induction (Q := fun s m => m.caps.lookup i = s.caps.lookup i)
      (fun s => rfl) ?_ _ s m h
    intro s x m hx hQ
    rw [hQ, iha hi s x hx]
  | group j a iha =>
    intro hi s m h
    simp only [Re.groups, List.mem_cons, not_or] at hi
    obtain ⟨x, hx, rfl⟩ := mem_matchAll_group.mp h
    have hij : (i == j) = false := by simpa using hi.1
    simp only [List.lookup_cons, hij]
    exact iha hi.2 s x hx

/-- A match of an expression without capture groups leaves the captures as they
were. -/
theorem matchAll_caps_eq :
    ∀ (re : Re), re.groups = [] → ∀ (s m : St), m ∈ matchAll re s → m.caps = s.caps := by
  intro re
  induction re with
  | chr p =>
    intro _ s m h
    obtain ⟨c, r, -, -, rfl⟩ := mem_matchAll_chr.mp h
    rfl
  | bol =>
    intro _ s m h
    rw [eq_of_mem_matchAll_bol h]
  | wordb =>
    intro _ s m h
    rw [eq_of_mem_matchAll_wordb h]
  | seq a b iha ihb =>
    intro hg s m h
    simp only [Re.groups, List.append_eq_nil] at hg
    obtain ⟨x, hx, hm⟩ := mem_matchAll_seq.mp h
    rw [ihb hg.2 x m hm, iha hg.1 s x hx]
  | opt a iha =>
    intro hg s m h
    rcases mem_matchAll_opt.mp h with h | h
    · exact iha hg s m h
    · rw [h]
  | star a iha =>
    intro hg s m h
    refine mem_starAux_induction (Q := fun s m => m.caps = s.caps) (fun s => rfl) ?_ _ s m h
    intro s x m hx hQ
    rw [hQ, iha hg s x hx]
  | group j a _ =>
    intro hg
    simp [Re.groups] at hg

/-- A successful search found its match at some position of the text. -/
theorem findFrom_some (re : Re) :
    ∀ (l : List Char) (prev : Option Char) (m : St), findFrom re prev l = some m →
      ∃ pre prev1 rest, l = pre ++ rest ∧
        m ∈ matchAll re { prev := prev1, rest := rest, caps := [] } := by
  intro l
  induction l with
  | nil =>
    intro prev m h
    simp only [findFrom] at h
    exact ⟨[], prev, [], rfl, List.mem_of_mem_head? h⟩
  | cons c r ih =>
    intro prev m h
    simp only [findFrom] at h
    split at h
    · rename_i m1 tl heq
      simp only [Option.some.injEq] at h
      subst h
      exact ⟨[], prev, c :: r, rfl, by rw [heq]; exact List.mem_cons_self _ _⟩
    · obtain ⟨pre, prev1, rest, hl, hm⟩ := ih (some c) m h
      exact ⟨c :: pre, prev1, rest, by rw [hl]; rfl, hm⟩

/-- When the expression matches at the start of the text, the search returns a
match at the start of the text. -/
theorem findFrom_of_mem (re : Re) (prev : Option Char) (l : List Char) (m : St)
    (h : m ∈ matchAll re { prev := prev, rest := l, caps := [] }) :
    ∃ m1, findFrom re prev l = some m1 ∧
      m1 ∈ matchAll re { prev := prev, rest := l, caps := [] } := by
  cases hL : matchAll re { prev := prev, rest := l, caps := [] } with
  | nil => rw [hL] at h; cases h
  | cons m1 tl =>
    refine ⟨m1, ?_, List.mem_cons_self _ _⟩
    cases l with
    | nil => simp [findFrom, hL]
    | cons c r => simp [findFrom, hL]

theorem rrsig_of_find_none (input : String)
    (h : findFrom (.group 0 rrsigRe) none input.toList = none) : rrsig input = (false, []) := by
  unfold rrsig findStringSubmatch
  rw [h]
  simp

theorem rrsig_of_find_some (input : String) (m : St)
    (h : findFrom (.group 0 rrsigRe) none input.toList = some m) :
    rrsig input =
      (true, [capture m.caps 4, capture m.caps 5, capture m.caps 6, capture m.caps 7,
        capture m.caps 8, capture m.caps 9, capture m.caps 10, capture m.caps 11]) := by
  unfold rrsig findStringSubmatch
  rw [h]
  simp [List.range_succ]

theorem isChar_iff (a c : Char) : isChar a c = true ↔ c = a := by
  unfold isChar
  rw [decide_eq_true_eq]
  constructor
  · intro h
    apply Char.ext
    apply UInt32.ext
    exact h
  · intro h
    rw [h]

theorem only_true : ∀ (re : Re), re.only fun _ => True := by
  intro re
  induction re with
  | chr p => intro _ _; trivial
  | bol => trivial
  | wordb => trivial
  | seq a b iha ihb => exact ⟨iha, ihb⟩
  | opt a iha => exact iha
  | star a iha => exact iha
  | group i a iha => exact iha

/-- The unread text after a match is a suffix of the unread text before it. -/
theorem matchAll_suffix (re : Re) (s m : St) (h : m ∈ matchAll re s) : m.rest <:+ s.rest := by
  obtain ⟨pre, hpre, -⟩ := matchAll_consumes (fun _ => True) re (only_true re) s m h
  exact ⟨pre, hpre.symm⟩

/-- A match of the pattern of `rrsig` passes through one state per token. -/
theorem rrsigRe_chain {s m : St} (h : m ∈ matchAll rrsigRe s) :
    ∃ x3 x4 x5 x6 y4 y5 y6 y7 y8 y9 y10 y11,
      x3 ∈ matchAll ownerRe s ∧
      x4 ∈ matchAll (fieldRe (Re.plus (.chr isDigit))) x3 ∧
      x5 ∈ matchAll (fieldRe (Re.lit "IN")) x4 ∧
      x6 ∈ matchAll (fieldRe (.seq (Re.lit "RRSI") (Re.plus (.chr (isChar 'G'))))) x5 ∧
      y4 ∈ matchAll (fieldRe (.group 4 (.chr isWord))) x6 ∧
      y5 ∈ matchAll (fieldRe (numRe 5)) y4 ∧
      y6 ∈ matchAll (fieldRe (numRe 6)) y5 ∧
      y7 ∈ matchAll (fieldRe (numRe 7)) y6 ∧
      y8 ∈ matchAll (fieldRe (numRe 8)) y7 ∧
      y9 ∈ matchAll (fieldRe (numRe 9)) y8 ∧
      y10 ∈ matchAll (fieldRe (numRe 10)) y9 ∧
      y11 ∈ matchAll (fieldRe signerRe) y10 ∧
      m ∈ matchAll (Re.plus (.chr isSpace)) y11 := by
  simp only [rrsigRe, Re.seqs, mem_matchAll_seq] at h
  obtain ⟨x1, h1, x2, h2, x3, h3, x4, h4, x5, h5, x6, h6, y4, g4, y5, g5, y6, g6, y7, g7,
    y8, g8, y9, g9, y10, g10, y11, g11, hm⟩ := h
  have e1 := eq_of_mem_matchAll_bol h1
  subst e1
  have e2 := eq_of_mem_matchAll_wordb h2
  subst e2
  exact ⟨x3, x4, x5, x6, y4, y5, y6, y7, y8, y9, y10, y11, h3, h4, h5, h6, g4, g5, g6, g7,
    g8, g9, g10, g11, hm⟩

/-- A match of the pattern of `rrsig` reads the letters `RRSIG` somewhere in
the unread text. -/
theorem rrsigRe_reads_RRSIG {s m : St} (h : m ∈ matchAll rrsigRe s) :
    ['R', 'R', 'S', 'I', 'G'] <:+: s.rest := by
  obtain ⟨x3, x4, x5, x6, -, -, -, -, -, -, -, -, h3, h4, h5, h6, -⟩ := rrsigRe_chain h
  have s3 := matchAll_suffix _ _ _ h3
  have s4 := matchAll_suffix _ _ _ h4
  have s5 := matchAll_suffix _ _ _ h5
  obtain ⟨z, hz, hx6⟩ := mem_matchAll_seq.mp h6
  have sz := matchAll_suffix _ _ _ hz
  have hlit : Re.lit "RRSI" =
      .seq (.chr (isChar 'R')) (.seq (.chr (isChar 'R'))
        (.seq (.chr (isChar 'S')) (.chr (isChar 'I')))) := rfl
  rw [hlit] at hx6
  simp only [Re.plus, mem_matchAll_seq, mem_matchAll_chr, isChar_iff] at hx6
  obtain ⟨u4, ⟨u1, ⟨c1, r1, e1, rfl, rfl⟩, u2, ⟨c2, r2, e2, rfl, rfl⟩, u3,
    ⟨c3, r3, e3, rfl, rfl⟩, c4, r4, e4, rfl, rfl⟩, u5, ⟨c5, r5, e5, rfl, rfl⟩, -⟩ := hx6
  simp only at e2 e3 e4 e5
  have hzr : z.rest = ['R', 'R', 'S', 'I', 'G'] ++ r5 := by
    rw [e1, e2, e3, e4, e5]
    rfl
  have hsuf : z.rest <:+ s.rest := sz.trans (s5.trans (s4.trans s3))
  obtain ⟨pre, hpre⟩ := hsuf
  exact ⟨pre, r5, by rw [← hpre, hzr, List.append_assoc]⟩

theorem mem_plus_chr {p : Char → Bool} {s m : St} (h : m ∈ matchAll (Re.plus (.chr p)) s) :
    ∃ pre, pre ≠ [] ∧ (∀ c, c ∈ pre → p c = true) ∧ s.rest = pre ++ m.rest ∧
      m.caps = s.caps := by
  obtain ⟨x, hx, hm⟩ := mem_matchAll_seq.mp h
  obtain ⟨c, r, hs, hp, rfl⟩ := mem_matchAll_chr.mp hx
  obtain ⟨pre, hpre, hall⟩ :=
    matchAll_consumes (fun c => p c = true) (.star (.chr p)) (fun _ hc => hc) _ m hm
  have hcaps := matchAll_caps_eq (.star (.chr p)) rfl _ m hm
  refine ⟨c :: pre, by simp, ?_, ?_, hcaps⟩
  · intro c' hc'
    rcases List.mem_cons.mp hc' with rfl | hc'
    · exact hp
    · exact hall c' hc'
  · rw [hs]
    simp only at hpre
    rw [hpre]
    rfl

/-- A numeric field captures a non-empty string of digits. -/
theorem numField_caps {i : Nat} {y m : St} (h : m ∈ matchAll (fieldRe (numRe i)) y) :
    ∃ ds, ds ≠ [] ∧ (∀ c, c ∈ ds → isDigit c = true) ∧ m.caps = (i, ds) :: y.caps := by
  obtain ⟨x, hx, hm⟩ := mem_matchAll_seq.mp h
  obtain ⟨-, -, -, -, hxc⟩ := mem_plus_chr hx
  obtain ⟨x1, hx1, rfl⟩ := mem_matchAll_group.mp hm
  obtain ⟨ds, hne, hds, hrest, hc⟩ := mem_plus_chr hx1
  refine ⟨ds, hne, hds, ?_⟩
  simp only [hc, hxc, hrest, List.length_append, Nat.add_sub_cancel, List.take_left']

/-- In every match of the pattern of `rrsig`, the capture groups 5 to 10 hold
non-empty strings of digits. -/
theorem rrsigRe_numeric_caps {s m : St} (h : m ∈ matchAll (.group 0 rrsigRe) s) (i : Nat)
    (h5 : 5 ≤ i) (h10 : i ≤ 10) :
    ∃ ds, ds ≠ [] ∧ (∀ c, c ∈ ds → isDigit c = true) ∧ capture m.caps i = String.mk ds := by
  obtain ⟨x, hx, rfl⟩ := mem_matchAll_group.mp h
  obtain ⟨x3, x4, x5, x6, y4, y5, y6, y7, y8, y9, y10, y11, -, -, -, -, -, g5, g6, g7, g8, g9,
    g10, g11, hm⟩ := rrsigRe_chain hx
  obtain ⟨d5, n5, a5, c5⟩ := numField_caps g5
  obtain ⟨d6, n6, a6, c6⟩ := numField_caps g6
  obtain ⟨d7, n7, a7, c7⟩ := numField_caps g7
  obtain ⟨d8, n8, a8, c8⟩ := numField_caps g8
  obtain ⟨d9, n9, a9, c9⟩ := numField_caps g9
  obtain ⟨d10, n10, a10, c10⟩ := numField_caps g10
  have hi0 : (i == 0) = false := by simp; omega
  have hi11 : i ∉ (fieldRe signerRe).groups := by
    simp [fieldRe, signerRe, signerBodyRe, Re.plus, Re.seqs, Re.atLeast2, Re.groups]
    omega
  obtain ⟨-, -, -, -, hxc⟩ := mem_plus_chr hm
  have hlook : x.caps.lookup i = y10.caps.lookup i := by
    rw [hxc]
    exact matchAll_lookup i _ hi11 _ _ g11
  simp only [capture, List.lookup_cons, hi0, hlook, c10, c9, c8, c7, c6, c5]
  have hcases : i = 5 ∨ i = 6 ∨ i = 7 ∨ i = 8 ∨ i = 9 ∨ i = 10 := by omega
  rcases hcases with rfl | rfl | rfl | rfl | rfl | rfl
  · exact ⟨d5, n5, a5, by simp⟩
  · exact ⟨d6, n6, a6, by simp⟩
  · exact ⟨d7, n7, a7, by simp⟩
  · exact ⟨d8, n8, a8, by simp⟩
  · exact ⟨d9, n9, a9, by simp⟩
  · exact ⟨d10, n10, a10, by simp⟩

/-! ## Integer coercion -/

theorem parseUintLoop_digits :
    ∀ (ds : List Char) (n : Nat), (∀ c, c ∈ ds → isDigit c = true) →
      (parseUintLoop ds n).2 = none ∨ parseUintLoop ds n = (maxUint64, some .range) := by
  intro ds
  induction ds with
  | nil => intro n _; left; rfl
  | cons c cs ih =>
    intro n h
    have hc : isDigit c = true := h c (List.mem_cons_self _ _)
    simp only [parseUintLoop, hc, if_true]
    split
    · right; rfl
    · split
      · right; rfl
      · exact ih _ (fun c' hc' => h c' (List.mem_cons_of_mem _ hc'))

theorem isChar_false_of_isDigit (a c : Char) (ha : a.toNat < 48) (h : isDigit c = true) :
    isChar a c = false := by
  simp only [isDigit, Bool.and_eq_true, decide_eq_true_eq] at h
  simp only [isChar, decide_eq_false_iff_not]
  omega

/-- On a non-empty string of digits `Atoi` fails only by a range error, and it
then returns the largest `int`. -/
theorem Atoi_digits (ds : List Char) (hne : ds ≠ []) (hds : ∀ c, c ∈ ds → isDigit c = true)
    (herr : (Atoi (String.mk ds)).2 ≠ none) :
    Atoi (String.mk ds) = (2 ^ 63 - 1, some .range) := by
  cases ds with
  | nil => exact absurd rfl hne
  | cons c cs =>
    have hc : isDigit c = true := hds c (List.mem_cons_self _ _)
    have hminus : isChar '-' c = false := isChar_false_of_isDigit _ _ (by decide) hc
    have hplus : isChar '+' c = false := isChar_false_of_isDigit _ _ (by decide) hc
    have hall : (c :: cs).all isDigit = true := by
      rw [List.all_eq_true]
      exact hds
    unfold Atoi at herr ⊢
    split at herr
    · exfalso
      apply herr
      simp only [String.toList, atoiFast, hminus, hplus, Bool.or_false, Bool.false_eq_true,
        if_false, hall, if_true]
      simp
    · rename_i hslow
      rw [if_neg hslow] at *
      simp only [String.toList, parseInt, hminus, hplus, Bool.or_false, Bool.false_eq_true,
        if_false, parseUint] at herr ⊢
      rcases parseUintLoop_digits (c :: cs) 0 hds with h | h
      · revert herr
        generalize parseUintLoop (c :: cs) 0 = res at h ⊢
        obtain ⟨un, e⟩ := res
        simp only at h
        subst h
        simp only [Bool.not_false, Bool.true_and, decide_eq_true_eq, Bool.false_and,
          Bool.false_eq_true, if_false]
        intro herr
        split
        · simp [intSize]
        · rename_i hlt
          simp [hlt] at herr
      · rw [h]
        simp [intSize, maxUint64]

/-! ## Alignment of a match with a line of blank-separated tokens -/

theorem split_unique (P : Char → Prop) :
    ∀ (l1 l2 : List Char) (a b : Char) (r1 r2 : List Char),
      l1 ++ a :: r1 = l2 ++ b :: r2 → (∀ c, c ∈ l1 → P c) → (∀ c, c ∈ l2 → P c) →
      ¬ P a → ¬ P b → l1 = l2 ∧ a = b ∧ r1 = r2 := by
  intro l1
  induction l1 with
  | nil =>
    intro l2 a b r1 r2 h _ h2 ha _
    cases l2 with
    | nil =>
      simp only [List.nil_append, List.cons.injEq] at h
      exact ⟨rfl, h.1, h.2⟩
    | cons c l2 =>
      simp only [List.nil_append, List.cons_append, List.cons.injEq] at h
      exact absurd (h.1 ▸ h2 c (List.mem_cons_self _ _)) ha
  | cons c l1 ih =>
    intro l2 a b r1 r2 h h1 h2 ha hb
    cases l2 with
    | nil =>
      simp only [List.nil_append, List.cons_append, List.cons.injEq] at h
      exact absurd (h.1 ▸ h1 c (List.mem_cons_self _ _)) hb
    | cons c2 l2 =>
      simp only [List.cons_append, List.cons.injEq] at h
      obtain ⟨e1, e2, e3⟩ := ih l2 a b r1 r2 h.2
        (fun x hx => h1 x (List.mem_cons_of_mem _ hx))
        (fun x hx => h2 x (List.mem_cons_of_mem _ hx)) ha hb
      exact ⟨by rw [h.1, e1], e2, e3⟩

theorem isSpace_false_of_ge (c : Char) (h : 33 ≤ c.toNat) : isSpace c = false := by
  simp only [isSpace, Bool.or_eq_false_iff, decide_eq_false_iff_not]
  omega

theorem isSpace_false_of_isDigit (c : Char) (h : isDigit c = true) : isSpace c = false := by
  simp only [isDigit, Bool.and_eq_true, decide_eq_true_eq] at h
  exact isSpace_false_of_ge c (by omega)

theorem isSpace_false_of_isLower (c : Char) (h : isLower c = true) : isSpace c = false := by
  simp only [isLower, Bool.and_eq_true, decide_eq_true_eq] at h
  exact isSpace_false_of_ge c (by omega)

theorem isSpace_false_of_isWord (c : Char) (h : isWord c = true) : isSpace c = false := by
  simp only [isWord, isDigit, isUpper, isLower, Bool.or_eq_true, Bool.and_eq_true,
    decide_eq_true_eq] at h
  exact isSpace_false_of_ge c (by omega)

theorem isSpace_false_of_isLowerAlnum (c : Char) (h : isLowerAlnum c = true) :
    isSpace c = false := by
  simp only [isLowerAlnum, Bool.or_eq_true] at h
  rcases h with h | h
  · exact isSpace_false_of_isLower c h
  · exact isSpace_false_of_isDigit c h

theorem isSpace_false_of_isChar (a c : Char) (ha : 33 ≤ a.toNat) (h : isChar a c = true) :
    isSpace c = false := by
  rw [(isChar_iff a c).mp h]
  exact isSpace_false_of_ge a ha

/-- A token expression that reads no blanks, applied where the text starts with
a blank-free token followed by a blank, and followed by something that reads a
blank, reads exactly the token. -/
theorem token_align {a : Re} (ha : a.only fun c => isSpace c = false) {x m : St}
    {T R : List Char} (h : m ∈ matchAll a x) (hx : x.rest = T ++ ' ' :: R)
    (hT : ∀ c, c ∈ T → isSpace c = false)
    (hnext : ∃ c r, m.rest = c :: r ∧ isSpace c = true) : m.rest = ' ' :: R := by
  obtain ⟨pre, hpre, hall⟩ := matchAll_consumes _ a ha x m h
  obtain ⟨c, r, hm, hc⟩ := hnext
  rw [hx, hm] at hpre
  obtain ⟨-, e2, e3⟩ := split_unique (fun c => isSpace c = false) T pre ' ' c R r hpre hT hall
    (by decide) (by simp [hc])
  rw [hm, e2, e3]

/-- The text before a match of `\s+` starts with a blank. -/
theorem head_of_mem_spaces {y m : St} (h : m ∈ matchAll (Re.plus (.chr isSpace)) y) :
    ∃ c r, y.rest = c :: r ∧ isSpace c = true := by
  obtain ⟨x, hx, -⟩ := mem_matchAll_seq.mp h
  obtain ⟨c, r, hs, hp, -⟩ := mem_matchAll_chr.mp hx
  exact ⟨c, r, hs, hp⟩

theorem head_of_mem_field {a : Re} {y m : St} (h : m ∈ matchAll (fieldRe a) y) :
    ∃ c r, y.rest = c :: r ∧ isSpace c = true := by
  obtain ⟨x, hx, -⟩ := mem_matchAll_seq.mp h
  exact head_of_mem_spaces hx

/-- A field (`\s+` and a blank-free token expression), applied where the text is
one blank, a non-empty blank-free token and another blank, and followed by
something that reads a blank, reads exactly the blank and the token. -/
theorem field_align {a : Re} (ha : a.only fun c => isSpace c = false) {y m : St}
    {T R : List Char} (h : m ∈ matchAll (fieldRe a) y) (hy : y.rest = ' ' :: (T ++ ' ' :: R))
    (hne : T ≠ []) (hT : ∀ c, c ∈ T → isSpace c = false)
    (hnext : ∃ c r, m.rest = c :: r ∧ isSpace c = true) :
    ∃ x, x.rest = T ++ ' ' :: R ∧ x.caps = y.caps ∧ m ∈ matchAll a x ∧ m.rest = ' ' :: R := by
  obtain ⟨x, hx, hm⟩ := mem_matchAll_seq.mp h
  obtain ⟨sp, hspne, hsp, hrest, hcaps⟩ := mem_plus_chr hx
  have hxrest : x.rest = T ++ ' ' :: R := by
    cases T with
    | nil => exact absurd rfl hne
    | cons t T =>
      have ht : isSpace t = false := hT t (List.mem_cons_self _ _)
      cases sp with
      | nil => exact absurd rfl hspne
      | cons s0 sp =>
        rw [hy] at hrest
        simp only [List.cons_append, List.cons.injEq] at hrest
        cases sp with
        | nil => simpa using hrest.2.symm
        | cons s1 sp =>
          exfalso
          simp only [List.cons_append, List.cons.injEq] at hrest
          have h1 : isSpace s1 = true := hsp s1 (by simp)
          rw [← hrest.2.1, ht] at h1
          cases h1
  exact ⟨x, hxrest, hcaps, hm, token_align ha hm hxrest hT hnext⟩

/-- A capture group around an expression without groups records the text it
read. -/
theorem group_caps {i : Nat} {a : Re} (hg : a.groups = []) {x m : St} {T : List Char}
    (h : m ∈ matchAll (.group i a) x) (hx : x.rest = T ++ m.rest) :
    m.caps = (i, T) :: x.caps := by
  obtain ⟨x1, hx1, rfl⟩ := mem_matchAll_group.mp h
  simp only at hx ⊢
  rw [matchAll_caps_eq a hg x x1 hx1, hx]
  simp

/-- The signer expression, applied where the text is a two-label signer name
followed by a blank, and ending before that blank, captures the whole name as
group 11. -/
theorem signer_caps {x m : St} {W L R : List Char} (h : m ∈ matchAll signerRe x)
    (hx : x.rest = signerText W L ++ ' ' :: R) (hW : ∀ c, c ∈ W → isWord c = true)
    (hL : ∀ c, c ∈ L → isLower c = true) (hLne : L ≠ []) (hm : m.rest = ' ' :: R) :
    m.caps = (11, signerText W L) :: x.caps := by
  obtain ⟨x1, hx1, hstar⟩ := mem_matchAll_seq.mp h
  have hbody := hx1
  obtain ⟨x0, hx0, hx1eq⟩ := mem_matchAll_group.mp hx1
  simp only [signerBodyRe, Re.seqs, mem_matchAll_seq] at hx0
  obtain ⟨u1, h1, u2, h2, u3, h3, u4, h4, h5⟩ := hx0
  obtain ⟨w, hw, hwall⟩ :=
    matchAll_consumes (fun c => isWord c = true) (.star (.chr isWord)) (fun _ hc => hc) _ _ h1
  obtain ⟨dots, hdne, hdall, hd, -⟩ := mem_plus_chr h2
  obtain ⟨ls, hls, hlall⟩ :=
    matchAll_consumes (fun c => isLower c = true) (Re.atLeast2 (.chr isLower))
      ⟨fun _ hc => hc, fun _ hc => hc, fun _ hc => hc⟩ _ _ h3
  have e4 := eq_of_mem_matchAll_wordb h4
  subst e4
  obtain ⟨c5, r5, h5r, h5c, hx0eq⟩ := mem_matchAll_chr.mp h5
  have hc5 : c5 = '.' := (isChar_iff _ _).mp h5c
  subst hc5
  have hx0rest : x0.rest = r5 := by rw [hx0eq]
  cases dots with
  | nil => exact absurd rfl hdne
  | cons d0 dots =>
    have hd0 : d0 = '.' := (isChar_iff _ _).mp (hdall d0 (List.mem_cons_self _ _))
    subst hd0
    cases L with
    | nil => exact absurd rfl hLne
    | cons l0 L =>
      have hl0 : isLower l0 = true := hL l0 (List.mem_cons_self _ _)
      -- the whole text read by the body
      have hall : x.rest = w ++ '.' :: (dots ++ (ls ++ '.' :: x0.rest)) := by
        rw [hw, hd, hls, h5r, hx0rest]
        simp
      rw [hx] at hall
      simp only [signerText, List.append_assoc, List.cons_append] at hall
      obtain ⟨eW, -, e1⟩ := split_unique (fun c => isWord c = true) W w '.' '.' _ _ hall hW hwall
        (by decide) (by decide)
      cases dots with
      | cons d1 dots =>
        exfalso
        simp only [List.cons_append, List.cons.injEq] at e1
        have hd1 : d1 = '.' := (isChar_iff _ _).mp (hdall d1 (by simp))
        rw [e1.1, hd1] at hl0
        exact absurd hl0 (by decide)
      | nil =>
        simp only [List.nil_append] at e1
        have e1' : (l0 :: L) ++ '.' :: (' ' :: R) = ls ++ '.' :: x0.rest := by
          simpa using e1
        obtain ⟨eL, -, e2⟩ := split_unique (fun c => isLower c = true) (l0 :: L) ls '.' '.' _ _ e1'
          hL hlall (by decide) (by decide)
        -- the first iteration ends where the match ends
        have hx1rest : x1.rest = ' ' :: R := by
          rw [hx1eq]
          exact e2.symm
        have hmx1 : m = x1 := by
          rcases mem_matchAll_star.mp hstar with ⟨x2, hx2, hlt, hm2⟩ | hm2
          · exfalso
            have hsuf := matchAll_suffix _ _ _ hm2
            have hle := hsuf.length_le
            rw [hm, hx1rest] at *
            omega
          · exact hm2
        rw [hmx1]
        refine group_caps ?_ hbody ?_
        · simp [signerBodyRe, Re.seqs, Re.plus, Re.atLeast2, Re.groups]
        · rw [hx, hx1rest]

/-! ### The characters of a name -/

theorem goodRun_nonspace {run : List Char} (h : goodRun run = true) :
    ∀ c, c ∈ run → isSpace c = false := by
  simp only [goodRun, Bool.and_eq_true, List.all_eq_true] at h
  intro c hc
  exact isSpace_false_of_isLowerAlnum c (h.2 c hc)

theorem labelText_nonspace :
    ∀ (runs : List (List Char)), runs.all goodRun = true →
      ∀ c, c ∈ labelText runs → isSpace c = false := by
  intro runs h c hc
  cases runs with
  | nil => simp [labelText] at hc
  | cons run runs =>
    simp only [List.all_cons, Bool.and_eq_true, List.all_eq_true] at h
    simp only [labelText, List.mem_append, List.mem_flatten, List.mem_map] at hc
    rcases hc with hc | ⟨l, ⟨r, hr, rfl⟩, hc⟩
    · exact goodRun_nonspace h.1 c hc
    · rcases List.mem_cons.mp hc with rfl | hc
      · decide
      · exact goodRun_nonspace (h.2 r hr) c hc

theorem nameText_nonspace (labels : List (List (List Char))) (tld : List Char)
    (hl : goodLabels labels = true) (ht : goodTld tld = true) :
    ∀ c, c ∈ nameText labels tld → isSpace c = false := by
  simp only [goodLabels, Bool.and_eq_true, List.all_eq_true] at hl
  simp only [goodTld, Bool.and_eq_true, List.all_eq_true] at ht
  intro c hc
  simp only [nameText, labelsText, List.mem_append, List.mem_flatten, List.mem_map,
    List.mem_singleton] at hc
  rcases hc with ⟨l, ⟨lab, hlab, rfl⟩, hc⟩ | hc | rfl
  · rcases List.mem_append.mp hc with hc | hc
    · have := hl.2 lab hlab
      simp only [goodLabel, Bool.and_eq_true] at this
      exact labelText_nonspace lab this.2 c hc
    · rw [List.mem_singleton] at hc
      subst hc
      decide
  · exact isSpace_false_of_isLower c (ht.2 c hc)
  · decide

theorem signerText_nonspace (W L : List Char) (hW : ∀ c, c ∈ W → isWord c = true)
    (hL : ∀ c, c ∈ L → isLower c = true) : ∀ c, c ∈ signerText W L → isSpace c = false := by
  intro c hc
  simp only [signerText, List.mem_append, List.mem_cons, List.mem_singleton] at hc
  rcases hc with hc | rfl | hc | hc
  · exact isSpace_false_of_isWord c (hW c hc)
  · decide
  · exact isSpace_false_of_isLower c (hL c hc)
  · rcases hc with rfl | hc
    · decide
    · cases hc

/-! ### Reading a line of the documented shape -/

theorem seqs_only (P : Char → Prop) :
    ∀ (as : List Re), (∀ a, a ∈ as → a.only P) → (Re.seqs as).only P := by
  intro as
  induction as with
  | nil => intro _ c hc; cases hc
  | cons a as ih =>
    intro h
    cases as with
    | nil => exact h a (List.mem_cons_self _ _)
    | cons b bs =>
      exact ⟨h a (List.mem_cons_self _ _), ih fun x hx => h x (List.mem_cons_of_mem _ hx)⟩

theorem lit_nonspace (t : String) (h : ∀ c, c ∈ t.toList → 33 ≤ c.toNat) :
    (Re.lit t).only fun c => isSpace c = false := by
  apply seqs_only
  intro a ha
  obtain ⟨c, hc, rfl⟩ := List.mem_map.mp ha
  intro c' hc'
  exact isSpace_false_of_isChar c c' (h c hc) hc'

theorem plus_chr_nonspace (p : Char → Bool) (h : ∀ c, p c = true → isSpace c = false) :
    (Re.plus (.chr p)).only fun c => isSpace c = false :=
  ⟨h, h⟩

theorem ownerRe_nonspace : ownerRe.only fun c => isSpace c = false := by
  refine ⟨⟨?_, ?_⟩, ⟨?_, ?_, ?_⟩, trivial, ?_⟩
  · exact ⟨lit_nonspace "xn--" (by decide), plus_chr_nonspace _ isSpace_false_of_isLowerAlnum,
      ⟨(fun c => isSpace_false_of_isChar '-' c (by decide)), plus_chr_nonspace _ isSpace_false_of_isLowerAlnum⟩,
      (fun c => isSpace_false_of_isChar '.' c (by decide))⟩
  · exact ⟨lit_nonspace "xn--" (by decide), plus_chr_nonspace _ isSpace_false_of_isLowerAlnum,
      ⟨(fun c => isSpace_false_of_isChar '-' c (by decide)), plus_chr_nonspace _ isSpace_false_of_isLowerAlnum⟩,
      (fun c => isSpace_false_of_isChar '.' c (by decide))⟩
  · exact isSpace_false_of_isLower
  · exact isSpace_false_of_isLower
  · exact isSpace_false_of_isLower
  · exact (fun c => isSpace_false_of_isChar '.' c (by decide))

theorem signerRe_nonspace : signerRe.only fun c => isSpace c = false := by
  have hbody : signerBodyRe.only fun c => isSpace c = false :=
    ⟨isSpace_false_of_isWord, plus_chr_nonspace _ (fun c => isSpace_false_of_isChar '.' c (by decide)),
      ⟨isSpace_false_of_isLower, isSpace_false_of_isLower, isSpace_false_of_isLower⟩, trivial,
      (fun c => isSpace_false_of_isChar '.' c (by decide))⟩
  exact ⟨hbody, hbody⟩

theorem goodNumber_iff (ds : List Char) :
    goodNumber ds = true ↔ ds ≠ [] ∧ ∀ c, c ∈ ds → isDigit c = true := by
  cases ds <;> simp [goodNumber]

/-- A numeric field, applied at a blank, a number and another blank, and
followed by something that reads a blank, reads the blank and the number and
captures the number. -/
theorem num_step {i : Nat} {y m : St} {D R : List Char} (h : m ∈ matchAll (fieldRe (numRe i)) y)
    (hy : y.rest = ' ' :: (D ++ ' ' :: R)) (hD : goodNumber D = true)
    (hnext : ∃ c r, m.rest = c :: r ∧ isSpace c = true) :
    m.rest = ' ' :: R ∧ m.caps = (i, D) :: y.caps := by
  obtain ⟨hne, hds⟩ := (goodNumber_iff D).mp hD
  obtain ⟨z, hz, hzc, hmz, hm⟩ :=
    field_align (a := numRe i) (plus_chr_nonspace _ isSpace_false_of_isDigit) h hy hne
      (fun c hc => isSpace_false_of_isDigit c (hds c hc)) hnext
  refine ⟨hm, ?_⟩
  rw [← hzc]
  exact group_caps (a := Re.plus (.chr isDigit)) rfl hmz (by rw [hz, hm])

/-- Every match of the pattern of `rrsig` at the start of a line of the
documented shape captures the fields of the line as groups 4 to 11. -/
theorem rrsigRe_line_caps {s m : St} {owner ttl alg lbl ottl exp inc tag W L sig : List Char}
    {tc : Char} (h : m ∈ matchAll rrsigRe s)
    (hs : s.rest = lineText owner ttl tc alg lbl ottl exp inc tag (signerText W L) sig)
    (howner : ∀ c, c ∈ owner → isSpace c = false) (httl : goodNumber ttl = true)
    (htc : isWord tc = true) (halg : goodNumber alg = true) (hlbl : goodNumber lbl = true)
    (hottl : goodNumber ottl = true) (hexp : goodNumber exp = true)
    (hinc : goodNumber inc = true) (htag : goodNumber tag = true)
    (hW : ∀ c, c ∈ W → isWord c = true) (hL : goodTld L = true) :
    ∃ c0, m.caps = (11, signerText W L) :: (10, tag) :: (9, inc) :: (8, exp) :: (7, ottl) ::
      (6, lbl) :: (5, alg) :: (4, [tc]) :: c0 := by
  obtain ⟨x3, x4, x5, x6, y4, y5, y6, y7, y8, y9, y10, y11, h3, h4, h5, h6, g4, g5, g6, g7, g8,
    g9, g10, g11, hm⟩ := rrsigRe_chain h
  have hLall : ∀ c, c ∈ L → isLower c = true := by
    simp only [goodTld, Bool.and_eq_true, List.all_eq_true] at hL
    exact hL.2
  have hLne : L ≠ [] := by
    simp only [goodTld, Bool.and_eq_true, decide_eq_true_eq] at hL
    intro hnil
    rw [hnil] at hL
    simp at hL
  obtain ⟨nttl, attl⟩ := (goodNumber_iff ttl).mp httl
  -- the owner name
  have r3 : x3.rest = ' ' :: _ := token_align ownerRe_nonspace h3 hs howner (head_of_mem_field h4)
  -- the TTL, `IN` and `RRSIG`
  obtain ⟨-, -, -, -, r4⟩ := field_align (plus_chr_nonspace _ isSpace_false_of_isDigit) h4 r3 nttl
    (fun c hc => isSpace_false_of_isDigit c (attl c hc)) (head_of_mem_field h5)
  obtain ⟨-, -, -, -, r5⟩ := field_align (lit_nonspace "IN" (by decide)) h5 r4 (by simp)
    (by decide) (head_of_mem_field h6)
  obtain ⟨-, -, -, -, r6⟩ := field_align (a := .seq (Re.lit "RRSI") (Re.plus (.chr (isChar 'G'))))
    ⟨lit_nonspace "RRSI" (by decide),
      plus_chr_nonspace _ (fun c => isSpace_false_of_isChar 'G' c (by decide))⟩
    h6 r5 (by simp) (by decide) (head_of_mem_field g4)
  -- the type covered
  obtain ⟨z4, hz4, -, hy4, q4⟩ := field_align (a := .group 4 (.chr isWord))
    isSpace_false_of_isWord g4 r6 (by simp)
    (by intro c hc; rw [List.mem_singleton] at hc; rw [hc]; exact isSpace_false_of_isWord tc htc)
    (head_of_mem_field g5)
  have c4 : y4.caps = (4, [tc]) :: z4.caps :=
    group_caps (a := .chr isWord) rfl hy4 (by rw [hz4, q4])
  -- the six numbers
  obtain ⟨q5, c5⟩ := num_step g5 q4 halg (head_of_mem_field g6)
  obtain ⟨q6, c6⟩ := num_step g6 q5 hlbl (head_of_mem_field g7)
  obtain ⟨q7, c7⟩ := num_step g7 q6 hottl (head_of_mem_field g8)
  obtain ⟨q8, c8⟩ := num_step g8 q7 hexp (head_of_mem_field g9)
  obtain ⟨q9, c9⟩ := num_step g9 q8 hinc (head_of_mem_field g10)
  obtain ⟨q10, c10⟩ := num_step g10 q9 htag (head_of_mem_field g11)
  -- the signer name
  obtain ⟨z11, hz11, zc11, hy11, q11⟩ := field_align signerRe_nonspace g11 q10
    (by simp [signerText]) (signerText_nonspace W L hW hLall) (head_of_mem_spaces hm)
  have c11 := signer_caps hy11 hz11 hW hLall hLne q11
  obtain ⟨-, -, -, -, cm⟩ := mem_plus_chr hm
  exact ⟨z4.caps, by rw [cm, c11, zc11, c10, c9, c8, c7, c6, c5, c4]⟩

/-! ### Existence of a match on a line of the documented shape -/

theorem endPrev_append (p : Option Char) (l1 l2 : List Char) :
    endPrev p (l1 ++ l2) = endPrev (endPrev p l1) l2 := by
  induction l1 generalizing p with
  | nil => rfl
  | cons c cs ih => exact ih (some c)

theorem endPrev_mem (l : List Char) (hne : l ≠ []) :
    ∀ p, ∃ c, c ∈ l ∧ endPrev p l = some c := by
  induction l with
  | nil => exact absurd rfl hne
  | cons c cs ih =>
    intro p
    cases cs with
    | nil => exact ⟨c, List.mem_cons_self _ _, rfl⟩
    | cons d ds =>
      obtain ⟨e, he, hp⟩ := ih (by simp) (some c)
      exact ⟨e, List.mem_cons_of_mem _ he, hp⟩

theorem steps_chr {p : Char → Bool} {c : Char} (h : p c = true) (pv : Option Char)
    (r : List Char) : Steps (.chr p) pv [c] r := by
  intro caps
  exact ⟨{ prev := some c, rest := r, caps := caps },
    mem_matchAll_chr.mpr ⟨c, r, rfl, h, rfl⟩, rfl, rfl⟩

theorem steps_seq {a b : Re} {pv : Option Char} {u v r : List Char}
    (ha : Steps a pv u (v ++ r)) (hb : Steps b (endPrev pv u) v r) :
    Steps (.seq a b) pv (u ++ v) r := by
  intro caps
  obtain ⟨m1, hm1, hp1, hr1⟩ := ha caps
  obtain ⟨m2, hm2, hp2, hr2⟩ := hb m1.caps
  have e1 : m1 = { prev := endPrev pv u, rest := v ++ r, caps := m1.caps } := by
    cases m1
    simp only at hp1 hr1
    rw [hp1, hr1]
  rw [← e1] at hm2
  refine ⟨m2, mem_matchAll_seq.mpr ⟨m1, ?_, hm2⟩, ?_, hr2⟩
  · rw [List.append_assoc]
    exact hm1
  · rw [hp2, endPrev_append]

theorem steps_star_nil (a : Re) (pv : Option Char) (r : List Char) :
    Steps (.star a) pv [] r := by
  intro caps
  exact ⟨_, mem_matchAll_star.mpr (Or.inr rfl), rfl, rfl⟩

theorem steps_star_cons {a : Re} {pv : Option Char} {u v r : List Char}
    (ha : Steps a pv u (v ++ r)) (hne : u ≠ [])
    (hs : Steps (.star a) (endPrev pv u) v r) :
    Steps (.star a) pv (u ++ v) r := by
  intro caps
  obtain ⟨m1, hm1, hp1, hr1⟩ := ha caps
  obtain ⟨m2, hm2, hp2, hr2⟩ := hs m1.caps
  have e1 : m1 = { prev := endPrev pv u, rest := v ++ r, caps := m1.caps } := by
    cases m1
    simp only at hp1 hr1
    rw [hp1, hr1]
  rw [← e1] at hm2
  refine ⟨m2, mem_matchAll_star.mpr (Or.inl ⟨m1, ?_, ?_, hm2⟩), ?_, hr2⟩
  · rw [List.append_assoc]
    exact hm1
  · rw [hr1]
    have : 0 < u.length := List.length_pos.mpr hne
    simp only [List.length_append]
    omega
  · rw [hp2, endPrev_append]

theorem steps_group {a : Re} {pv : Option Char} {pre r : List Char} (i : Nat)
    (ha : Steps a pv pre r) : Steps (.group i a) pv pre r := by
  intro caps
  obtain ⟨m1, hm1, hp1, hr1⟩ := ha caps
  exact ⟨_, mem_matchAll_group.mpr ⟨m1, hm1, rfl⟩, hp1, hr1⟩

theorem steps_opt_nil (a : Re) (pv : Option Char) (r : List Char) : Steps (.opt a) pv [] r := by
  intro caps
  exact ⟨_, mem_matchAll_opt.mpr (Or.inr rfl), rfl, rfl⟩

theorem steps_wordb {pv : Option Char} {r : List Char}
    (h : (wordAt pv != wordAt r.head?) = true) : Steps .wordb pv [] r := by
  intro caps
  refine ⟨{ prev := pv, rest := r, caps := caps }, ?_, rfl, rfl⟩
  simp only [matchAll, List.nil_append, h, if_true, List.mem_singleton]

theorem steps_bol (r : List Char) : Steps .bol none [] r := by
  intro caps
  refine ⟨{ prev := none, rest := r, caps := caps }, ?_, rfl, rfl⟩
  simp [matchAll]

theorem steps_star_chr {p : Char → Bool} (r : List Char) :
    ∀ (pre : List Char) (pv : Option Char), (∀ c, c ∈ pre → p c = true) →
      Steps (.star (.chr p)) pv pre r := by
  intro pre
  induction pre with
  | nil => intro pv _; exact steps_star_nil _ _ _
  | cons c cs ih =>
    intro pv h
    exact steps_star_cons (u := [c]) (steps_chr (h c (List.mem_cons_self _ _)) _ _) (by simp)
      (ih _ fun x hx => h x (List.mem_cons_of_mem _ hx))

theorem steps_plus_chr {p : Char → Bool} {pre : List Char} (hne : pre ≠ [])
    (h : ∀ c, c ∈ pre → p c = true) (pv : Option Char) (r : List Char) :
    Steps (Re.plus (.chr p)) pv pre r := by
  cases pre with
  | nil => exact absurd rfl hne
  | cons c cs =>
    exact steps_seq (u := [c]) (steps_chr (h c (List.mem_cons_self _ _)) _ _)
      (steps_star_chr r cs _ fun x hx => h x (List.mem_cons_of_mem _ hx))

theorem steps_atLeast2_chr {p : Char → Bool} {pre : List Char} (hlen : 2 ≤ pre.length)
    (h : ∀ c, c ∈ pre → p c = true) (pv : Option Char) (r : List Char) :
    Steps (Re.atLeast2 (.chr p)) pv pre r := by
  cases pre with
  | nil => simp at hlen
  | cons c cs =>
    cases cs with
    | nil => simp at hlen
    | cons d ds =>
      exact steps_seq (u := [c]) (steps_chr (h c (by simp)) _ _)
        (steps_seq (u := [d]) (steps_chr (h d (by simp)) _ _)
          (steps_star_chr r ds _ fun x hx => h x (by simp [hx])))

theorem steps_field {a : Re} {T r : List Char} (pv : Option Char)
    (ha : Steps a (some ' ') T r) : Steps (fieldRe a) pv (' ' :: T) r :=
  steps_seq (u := [' ']) (steps_plus_chr (by simp) (by simp; decide) _ _) ha

theorem goodRun_iff (run : List Char) :
    goodRun run = true ↔ run ≠ [] ∧ ∀ c, c ∈ run → isLowerAlnum c = true := by
  cases run <;> simp [goodRun]

theorem steps_runs (r : List Char) :
    ∀ (runs : List (List Char)) (pv : Option Char), runs.all goodRun = true →
      Steps (.star (.group 3 (.seq (.chr (isChar '-')) (Re.plus (.chr isLowerAlnum))))) pv
        (runs.map fun run => '-' :: run).flatten r := by
  intro runs
  induction runs with
  | nil => intro pv _; exact steps_star_nil _ _ _
  | cons run runs ih =>
    intro pv h
    simp only [List.all_cons, Bool.and_eq_true] at h
    obtain ⟨hne, hall⟩ := (goodRun_iff run).mp h.1
    simp only [List.map_cons, List.flatten_cons]
    exact steps_star_cons (u := '-' :: run)
      (steps_group 3 (steps_seq (u := ['-']) (steps_chr (by decide) _ _)
        (steps_plus_chr hne hall _ _)))
      (by simp) (ih _ h.2)

theorem steps_label (runs : List (List Char)) (h : goodLabel runs = true) (pv : Option Char)
    (r : List Char) : Steps labelRe pv (labelText runs ++ ['.']) r := by
  cases runs with
  | nil => simp [goodLabel] at h
  | cons run runs =>
    simp only [goodLabel, List.all_cons, Bool.and_eq_true] at h
    obtain ⟨hne, hall⟩ := (goodRun_iff run).mp h.2.1
    have key : Steps labelRe pv
        ([] ++ (run ++ ((runs.map fun run => '-' :: run).flatten ++ ['.']))) r :=
      steps_seq (steps_opt_nil _ _ _)
        (steps_seq (steps_plus_chr hne hall _ _)
          (steps_seq (steps_runs _ runs _ h.2.2) (steps_chr (by decide) _ _)))
    simpa [labelText, List.append_assoc] using key

theorem steps_labels (r : List Char) :
    ∀ (labels : List (List (List Char))) (pv : Option Char), labels.all goodLabel = true →
      Steps (.star (.group 1 labelRe)) pv (labelsText labels) r := by
  intro labels
  induction labels with
  | nil => intro pv _; exact steps_star_nil _ _ _
  | cons l ls ih =>
    intro pv h
    simp only [List.all_cons, Bool.and_eq_true] at h
    simp only [labelsText, List.map_cons, List.flatten_cons]
    exact steps_star_cons (steps_group 1 (steps_label l h.1 _ _)) (by simp) (ih _ h.2)

theorem isWord_of_isLower (c : Char) (h : isLower c = true) : isWord c = true := by
  simp [isWord, h]

theorem isWord_of_isLowerAlnum (c : Char) (h : isLowerAlnum c = true) : isWord c = true := by
  simp only [isLowerAlnum, Bool.or_eq_true] at h
  rcases h with h | h <;> simp [isWord, h]

theorem wordAt_endPrev (p : Option Char) (l : List Char) (hne : l ≠ [])
    (h : ∀ c, c ∈ l → isWord c = true) : wordAt (endPrev p l) = true := by
  obtain ⟨c, hc, hp⟩ := endPrev_mem l hne p
  rw [hp]
  exact h c hc

theorem goodTld_iff (tld : List Char) :
    goodTld tld = true ↔ 2 ≤ tld.length ∧ ∀ c, c ∈ tld → isLower c = true := by
  simp [goodTld]

theorem ne_nil_of_two_le {l : List Char} (h : 2 ≤ l.length) : l ≠ [] := by
  intro hl
  rw [hl] at h
  simp at h

/-- The owner expression reads an owner name of the documented shape. -/
theorem steps_owner (labels : List (List (List Char))) (tld : List Char)
    (hl : goodLabels labels = true) (ht : goodTld tld = true) (pv : Option Char)
    (r : List Char) : Steps ownerRe pv (nameText labels tld) r := by
  obtain ⟨hlen, hlow⟩ := (goodTld_iff tld).mp ht
  cases labels with
  | nil => simp [goodLabels] at hl
  | cons l ls =>
    simp only [goodLabels, List.all_cons, Bool.and_eq_true] at hl
    have hw : (wordAt (endPrev (endPrev pv ((labelText l ++ ['.']) ++ labelsText ls)) tld) !=
        wordAt (([] : List Char) ++ (['.'] ++ r)).head?) = true := by
      rw [wordAt_endPrev _ tld (ne_nil_of_two_le hlen) fun c hc => isWord_of_isLower c (hlow c hc)]
      rfl
    have key : Steps ownerRe pv
        (((labelText l ++ ['.']) ++ labelsText ls) ++ (tld ++ ([] ++ ['.']))) r :=
      steps_seq
        (steps_seq (steps_group 1 (steps_label l hl.2.1 _ _)) (steps_labels _ ls _ hl.2.2))
        (steps_seq (steps_atLeast2_chr hlen hlow _ _)
          (steps_seq (steps_wordb hw) (steps_chr (by decide) _ _)))
    simpa [nameText, labelsText, List.append_assoc] using key

/-- The signer expression reads a signer name of two labels. -/
theorem steps_signer (W L : List Char) (hW : ∀ c, c ∈ W → isWord c = true)
    (hL : goodTld L = true) (pv : Option Char) (r : List Char) :
    Steps signerRe pv (signerText W L) r := by
  obtain ⟨hlen, hlow⟩ := (goodTld_iff L).mp hL
  have hw : (wordAt (endPrev (endPrev (endPrev pv W) ['.']) L) !=
      wordAt (([] : List Char) ++ (['.'] ++ ([] ++ r))).head?) = true := by
    rw [wordAt_endPrev _ L (ne_nil_of_two_le hlen) fun c hc => isWord_of_isLower c (hlow c hc)]
    rfl
  have key : Steps signerRe pv ((W ++ (['.'] ++ (L ++ ([] ++ ['.'])))) ++ []) r :=
    steps_seq
      (steps_group 11
        (steps_seq (steps_star_chr _ W _ hW)
          (steps_seq (steps_plus_chr (by simp) (by simp; decide) _ _)
            (steps_seq (steps_atLeast2_chr hlen hlow _ _)
              (steps_seq (steps_wordb hw) (steps_chr (by decide) _ _))))))
      (steps_star_nil _ _ _)
  simpa [signerText, List.append_assoc] using key

theorem nameText_head (labels : List (List (List Char))) (tld : List Char)
    (hl : goodLabels labels = true) :
    ∃ c t, nameText labels tld = c :: t ∧ isWord c = true := by
  cases labels with
  | nil => simp [goodLabels] at hl
  | cons l ls =>
    simp only [goodLabels, List.all_cons, Bool.and_eq_true] at hl
    cases l with
    | nil => simp [goodLabel] at hl
    | cons run runs =>
      have h1 := hl.2.1
      simp only [goodLabel, List.all_cons, Bool.and_eq_true] at h1
      obtain ⟨hne, hall⟩ := (goodRun_iff run).mp h1.2.1
      cases run with
      | nil => exact absurd rfl hne
      | cons c cs =>
        exact ⟨c, cs ++ (runs.map fun r => '-' :: r).flatten ++ ['.'] ++ labelsText ls ++
            (tld ++ ['.']), by simp [nameText, labelsText, labelText],
          isWord_of_isLowerAlnum c (hall c (List.mem_cons_self _ _))⟩

/-- The pattern of `rrsig` has a match at the start of a line of the documented
shape. -/
theorem rrsigRe_line_match (labels : List (List (List Char)))
    (tld ttl alg lbl ottl exp inc tag W L sig : List Char) (tc : Char)
    (hlabels : goodLabels labels = true) (htld : goodTld tld = true)
    (httl : goodNumber ttl = true) (htc : isWord tc = true) (halg : goodNumber alg = true)
    (hlbl : goodNumber lbl = true) (hottl : goodNumber ottl = true)
    (hexp : goodNumber exp = true) (hinc : goodNumber inc = true)
    (htag : goodNumber tag = true) (hW : ∀ c, c ∈ W → isWord c = true)
    (hL : goodTld L = true) :
    ∃ m, m ∈ matchAll rrsigRe
      { prev := none,
        rest := lineText (nameText labels tld) ttl tc alg lbl ottl exp inc tag (signerText W L) sig,
        caps := [] } := by
  obtain ⟨nttl, attl⟩ := (goodNumber_iff ttl).mp httl
  obtain ⟨nalg, aalg⟩ := (goodNumber_iff alg).mp halg
  obtain ⟨nlbl, albl⟩ := (goodNumber_iff lbl).mp hlbl
  obtain ⟨nottl, aottl⟩ := (goodNumber_iff ottl).mp hottl
  obtain ⟨nexp, aexp⟩ := (goodNumber_iff exp).mp hexp
  obtain ⟨ninc, ainc⟩ := (goodNumber_iff inc).mp hinc
  obtain ⟨ntag, atag⟩ := (goodNumber_iff tag).mp htag
  obtain ⟨c0, t0, hct, hc0⟩ := nameText_head labels tld hlabels
  have key : Steps rrsigRe none
      ([] ++ ([] ++ (nameText labels tld ++ ((' ' :: ttl) ++ ((' ' :: ['I', 'N']) ++
        ((' ' :: (['R', 'R', 'S', 'I'] ++ ['G'])) ++ ((' ' :: [tc]) ++ ((' ' :: alg) ++
        ((' ' :: lbl) ++ ((' ' :: ottl) ++ ((' ' :: exp) ++ ((' ' :: inc) ++ ((' ' :: tag) ++
        ((' ' :: signerText W L) ++ [' ']))))))))))))))
      sig := by
    refine steps_seq (steps_bol _) (steps_seq (steps_wordb ?_)
      (steps_seq (steps_owner labels tld hlabels htld _ _)
      (steps_seq (steps_field _ (steps_plus_chr nttl attl _ _))
      (steps_seq (steps_field _
        (steps_seq (u := ['I']) (steps_chr (by decide) _ _) (steps_chr (by decide) _ _)))
      (steps_seq (steps_field _
        (steps_seq
          (steps_seq (u := ['R']) (steps_chr (by decide) _ _)
            (steps_seq (u := ['R']) (steps_chr (by decide) _ _)
              (steps_seq (u := ['S']) (steps_chr (by decide) _ _)
                (steps_chr (by decide) _ _))))
          (steps_plus_chr (by simp) (by simp; decide) _ _)))
      (steps_seq (steps_field _ (steps_group 4 (steps_chr htc _ _)))
      (steps_seq (steps_field _ (steps_group 5 (steps_plus_chr nalg aalg _ _)))
      (steps_seq (steps_field _ (steps_group 6 (steps_plus_chr nlbl albl _ _)))
      (steps_seq (steps_field _ (steps_group 7 (steps_plus_chr nottl aottl _ _)))
      (steps_seq (steps_field _ (steps_group 8 (steps_plus_chr nexp aexp _ _)))
      (steps_seq (steps_field _ (steps_group 9 (steps_plus_chr ninc ainc _ _)))
      (steps_seq (steps_field _ (steps_group 10 (steps_plus_chr ntag atag _ _)))
      (steps_seq (steps_field _ (steps_signer W L hW hL _ _))
        (steps_plus_chr (by simp) (by simp; decide) _ _))))))))))))))
    simp only [hct, List.nil_append, List.cons_append, List.head?_cons, endPrev, wordAt, hc0]
    rfl
  obtain ⟨m, hm, -, -⟩ := key []
  refine ⟨m, ?_⟩
  simpa [lineText, List.append_assoc] using hm

/-! ## The worker (basic facts) -/

theorem worker_Rank (r : Record) (answer : String) : (worker r answer).Rank = r.Rank := by
  unfold worker
  split
  split <;> rfl

theorem worker_Domain (r : Record) (answer : String) : (worker r answer).Domain = r.Domain := by
  unfold worker
  split
  split <;> rfl

theorem worker_Support (r : Record) (answer : String) :
    (worker r answer).Support = (rrsig answer).1 := by
  unfold worker
  split
  rename_i support fields heq
  rw [heq]
  split <;> rfl

/-! ## The parser -/

set_option maxRecDepth 100000 in
/-- C3: on the specification's example line `rrsig` reports a signature and
returns the eight fields type-covered, algorithm, labels, original-ttl,
expiration, inception, key-tag and signer-name in that order. -/
theorem rrsig_example_line :
    rrsig "example.com. 3600 IN RRSIG A 8 2 3600 20300101000000 20300001000000 12345 example.com. AbCd==" =
      (true, ["A", "8", "2", "3600", "20300101000000", "20300001000000", "12345",
        "example.com."]) := by
  decide

set_option maxRecDepth 100000 in
/-- C4 (counterexample): three lines of the documented shape on which `rrsig`
finds nothing: one whose type-covered token has two letters (`NS`), one whose
signer name has three labels (`example.co.uk.`), and one whose signer name
holds a hyphen (`my-site.com.`). -/
theorem rrsig_misses_documented_lines :
    rrsig "example.com. 3600 IN RRSIG NS 8 2 3600 20300101000000 20300001000000 12345 example.com. AbCd==" =
        (false, []) ∧
      rrsig "example.com. 3600 IN RRSIG A 8 2 3600 20300101000000 20300001000000 12345 example.co.uk. AbCd==" =
        (false, []) ∧
      rrsig "example.com. 3600 IN RRSIG A 8 2 3600 20300101000000 20300001000000 12345 my-site.com. AbCd==" =
        (false, []) := by
  decide

/-- C4 (amended): for every line
`<owner> <ttl> IN RRSIG <tc> <alg> <labels> <ottl> <exp> <inc> <tag> <signer> <sigdata>`
with single blanks between the tokens, where the owner is one or more labels
(runs of `[a-z0-9]` joined by single hyphens), each followed by a dot, then a
top-level label of two or more lowercase letters and a trailing dot, `tc` is a
single word character, `ttl`, `alg`, `labels`, `ottl`, `exp`, `inc` and `tag`
are non-empty digit strings, and the signer is `<label>.<tld>.` with a label of
word characters (no hyphen) and a top-level label of two or more lowercase
letters, `rrsig` returns found = true and the eight fields
`[tc, alg, labels, ottl, exp, inc, tag, signer]` exactly as they appear in the
line. -/
theorem rrsig_documented_line (labels : List (List (List Char)))
    (tld ttl alg lbl ottl exp inc tag W L sig : List Char) (tc : Char)
    (hlabels : goodLabels labels = true) (htld : goodTld tld = true)
    (httl : goodNumber ttl = true) (htc : isWord tc = true) (halg : goodNumber alg = true)
    (hlbl : goodNumber lbl = true) (hottl : goodNumber ottl = true)
    (hexp : goodNumber exp = true) (hinc : goodNumber inc = true)
    (htag : goodNumber tag = true) (hW : W.all isWord = true) (hL : goodTld L = true) :
    rrsig (String.mk
        (lineText (nameText labels tld) ttl tc alg lbl ottl exp inc tag (signerText W L) sig)) =
      (true, [String.mk [tc], String.mk alg, String.mk lbl, String.mk ottl, String.mk exp,
        String.mk inc, String.mk tag, String.mk (signerText W L)]) := by
  have hW1 : ∀ c, c ∈ W → isWord c = true := by
    rw [List.all_eq_true] at hW
    exact hW
  obtain ⟨m, hm⟩ := rrsigRe_line_match labels tld ttl alg lbl ottl exp inc tag W L sig tc
    hlabels htld httl htc halg hlbl hottl hexp hinc htag hW1 hL
  obtain ⟨m1, hf, hm1⟩ := findFrom_of_mem (.group 0 rrsigRe) none _ _
    (mem_matchAll_group.mpr ⟨m, hm, rfl⟩)
  obtain ⟨x, hx, hm1eq⟩ := mem_matchAll_group.mp hm1
  obtain ⟨c0, hcaps⟩ := rrsigRe_line_caps hx rfl (nameText_nonspace labels tld hlabels htld)
    httl htc halg hlbl hottl hexp hinc htag hW1 hL
  rw [rrsig_of_find_some (String.mk
    (lineText (nameText labels tld) ttl tc alg lbl ottl exp inc tag (signerText W L) sig)) m1 hf,
    hm1eq]
  simp only [hcaps]
  simp [capture, List.lookup]

set_option maxRecDepth 100000 in
theorem rrsig_documented_line_witness :
    String.mk (lineText
        (nameText [["my".toList, "site".toList], ["example".toList], ["co".toList]] "uk".toList)
        "3600".toList 'A' "8".toList "2".toList "3600".toList "20300101000000".toList
        "20300001000000".toList "12345".toList (signerText "example".toList "com".toList)
        "AbCd==".toList) =
      "my-site.example.co.uk. 3600 IN RRSIG A 8 2 3600 20300101000000 20300001000000 12345 example.com. AbCd==" ∧
    rrsig (String.mk (lineText
        (nameText [["my".toList, "site".toList], ["example".toList], ["co".toList]] "uk".toList)
        "3600".toList 'A' "8".toList "2".toList "3600".toList "20300101000000".toList
        "20300001000000".toList "12345".toList (signerText "example".toList "com".toList)
        "AbCd==".toList)) =
      (true, [String.mk ['A'], String.mk "8".toList, String.mk "2".toList,
        String.mk "3600".toList, String.mk "20300101000000".toList,
        String.mk "20300001000000".toList, String.mk "12345".toList,
        String.mk (signerText "example".toList "com".toList)]) :=
  ⟨by decide,
    rrsig_documented_line [["my".toList, "site".toList], ["example".toList], ["co".toList]]
      "uk".toList "3600".toList "8".toList "2".toList "3600".toList "20300101000000".toList
      "20300001000000".toList "12345".toList "example".toList "com".toList "AbCd==".toList 'A'
      (by decide) (by decide) (by decide) (by decide) (by decide) (by decide) (by decide)
      (by decide) (by decide) (by decide) (by decide) (by decide)⟩

/-- C8: for every text that does not contain `RRSIG` (the empty answer after
exhausted retries included), `rrsig` reports no signature and returns an empty
field list, and the record that `worker` builds from it has `Support = false`. -/
theorem rrsig_no_false_positive (input : String)
    (h : ¬ (['R', 'R', 'S', 'I', 'G'] <:+: input.toList)) :
    rrsig input = (false, []) ∧ ∀ r : Record, (worker r input).Support = false := by
  have hr : rrsig input = (false, []) := by
    cases hf : findFrom (.group 0 rrsigRe) none input.toList with
    | none => exact rrsig_of_find_none input hf
    | some m =>
      exfalso
      obtain ⟨pre, prev1, rest, hl, hm⟩ := findFrom_some _ _ _ _ hf
      obtain ⟨x, hx, -⟩ := mem_matchAll_group.mp hm
      obtain ⟨p, q, hpq⟩ := rrsigRe_reads_RRSIG hx
      apply h
      refine ⟨pre ++ p, q, ?_⟩
      simp only at hpq
      rw [hl, ← hpq]
      simp [List.append_assoc]
  refine ⟨hr, ?_⟩
  intro r
  rw [worker_Support, hr]

set_option maxRecDepth 100000 in
theorem rrsig_no_false_positive_witness :
    ¬ (['R', 'R', 'S', 'I', 'G'] <:+: "".toList) ∧
      rrsig "" = (false, []) ∧ ∀ r : Record, (worker r "").Support = false :=
  ⟨by decide, rrsig_no_false_positive "" (by decide)⟩

/-! ## The resolver client -/

/-- When the next `j` runs fail and the one after succeeds with `out`, and the
attempt counter leaves room for `j` retries, `dig` returns `out` after `j + 1`
runs and `j` sleeps. -/
theorem dig_fail_then_succeed (env : Env) (domain bin out : String)
    (hbin : env.lookPath = some bin) :
    ∀ (j a : Nat) (t : Trace), a + j ≤ 10 →
      (∀ i, i < j → env.run domain (t.calls + i) = none) →
      env.run domain (t.calls + j) = some out →
      dig env domain a t =
        some (out, { calls := t.calls + j + 1, sleeps := t.sleeps + j,
                     log := t.log ++ (List.range j).map fun i => a + 1 + i }) := by
  intro j
  induction j with
  | zero =>
    intro a t _ _ hok
    rw [dig]
    simp only [hbin]
    rw [Nat.add_zero] at hok
    simp [hok]
  | succ j ih =>
    intro a t ha hfail hok
    have h0 : env.run domain t.calls = none := by simpa using hfail 0 (by omega)
    rw [dig]
    simp only [hbin, h0]
    rw [if_pos (by omega)]
    rw [ih (a + 1) _ (by omega)
      (by intro i hi; simpa [Nat.add_assoc, Nat.add_comm 1 i] using hfail (i + 1) (by omega))
      (by simpa [Nat.add_assoc, Nat.add_comm 1 j] using hok)]
    simp only [Option.some.injEq, Prod.mk.injEq, true_and, Trace.mk.injEq]
    refine ⟨by omega, by omega, ?_⟩
    rw [List.range_succ_eq_map, List.map_cons, List.map_map, List.append_assoc]
    simp only [List.singleton_append, Nat.add_zero, List.cons.injEq, true_and,
      List.append_cancel_left_eq]
    apply List.map_congr_left
    intro i _
    simp only [Function.comp, Nat.succ_eq_add_one]
    omega

/-- When every run fails, `dig` started with counter `a ≤ 10` runs the command
`11 - a` times, sleeps `10 - a` times and returns the empty string. -/
theorem dig_all_fail (env : Env) (domain bin : String) (hbin : env.lookPath = some bin)
    (hfail : ∀ n, env.run domain n = none) :
    ∀ (d a : Nat) (t : Trace), a + d = 10 →
      dig env domain a t =
        some ("", { calls := t.calls + d + 1, sleeps := t.sleeps + d,
                    log := t.log ++ (List.range (d + 1)).map fun i => a + 1 + i }) := by
  intro d
  induction d with
  | zero =>
    intro a t ha
    rw [dig]
    simp only [hbin, hfail]
    rw [if_neg (by omega)]
    simp [List.range_succ]
  | succ d ih =>
    intro a t ha
    rw [dig]
    simp only [hbin, hfail]
    rw [if_pos (by omega)]
    rw [ih (a + 1) _ (by omega)]
    simp only [Option.some.injEq, Prod.mk.injEq, true_and, Trace.mk.injEq]
    refine ⟨by omega, by omega, ?_⟩
    rw [List.range_succ_eq_map (d + 1), List.map_cons, List.map_map, List.append_assoc]
    simp only [List.singleton_append, Nat.add_zero, List.cons.injEq, true_and,
      List.append_cancel_left_eq]
    apply List.map_congr_left
    intro i _
    simp only [Function.comp, Nat.succ_eq_add_one]
    omega

/-- C2 (as the code behaves): when the resolution call fails on every attempt,
`dig(domain, 0)` runs the command eleven times (attempt counters 0 through 10,
the last diagnostic line reading "attempt 11 of 10"), sleeps ten times and then
returns the empty string. -/
theorem dig_exhaustion_runs_eleven_times (env : Env) (domain bin : String)
    (hbin : env.lookPath = some bin) (hfail : ∀ n, env.run domain n = none) :
    dig env domain 0 { calls := 0, sleeps := 0, log := [] } =
      some ("", { calls := 11, sleeps := 10, log := [1, 2, 3, 4, 5, 6, 7, 8, 9, 10, 11] }) := by
  rw [dig_all_fail env domain bin hbin hfail 10 0 _ (by omega)]
  rfl

theorem dig_exhaustion_runs_eleven_times_witness :
    dig failingEnv "example.com" 0 { calls := 0, sleeps := 0, log := [] } =
      some ("", { calls := 11, sleeps := 10, log := [1, 2, 3, 4, 5, 6, 7, 8, 9, 10, 11] }) :=
  dig_exhaustion_runs_eleven_times failingEnv "example.com" "/usr/bin/dig" rfl (fun _ => rfl)

/-- C7: for every `k < 10`, when the resolution call fails exactly `k` times and
then succeeds with output `out`, `dig(domain, 0)` returns `out`, having run the
command `k + 1` times and slept `k` times (one diagnostic line per failure). -/
theorem dig_retry_until_success (env : Env) (domain bin out : String) (k : Nat)
    (hbin : env.lookPath = some bin) (hk : k < 10)
    (hfail : ∀ i, i < k → env.run domain i = none) (hok : env.run domain k = some out) :
    dig env domain 0 { calls := 0, sleeps := 0, log := [] } =
      some (out, { calls := k + 1, sleeps := k, log := (List.range k).map fun i => i + 1 }) := by
  rw [dig_fail_then_succeed env domain bin out hbin k 0 _ (by omega)
    (by intro i hi; simpa using hfail i hi) (by simpa using hok)]
  simp only [Option.some.injEq, Prod.mk.injEq, true_and, Trace.mk.injEq, List.nil_append]
  refine ⟨by omega, by omega, ?_⟩
  apply List.map_congr_left
  intro i _
  omega

theorem dig_retry_until_success_witness :
    dig flakyEnv "example.com" 0 { calls := 0, sleeps := 0, log := [] } =
      some ("answer", { calls := 4, sleeps := 3, log := [1, 2, 3] }) :=
  dig_retry_until_success flakyEnv "example.com" "/usr/bin/dig" "answer" 3 rfl (by decide)
    (by intro i hi; simp [flakyEnv, hi]) (by simp [flakyEnv])

/-! ## The worker -/

/-- C5: whenever the record built by `worker` has `Support = false`, its six
numeric fields are 0 and its two string fields are the placeholder "nil". -/
theorem worker_unsupported_sentinels (r : Record) (answer : String)
    (h : (worker r answer).Support = false) :
    (worker r answer).Alg = 0 ∧ (worker r answer).Label = 0 ∧ (worker r answer).Ttl = 0 ∧
      (worker r answer).End = 0 ∧ (worker r answer).Start = 0 ∧ (worker r answer).Keytag = 0 ∧
      (worker r answer).RType = "nil" ∧ (worker r answer).Signer = "nil" := by
  have hs := worker_Support r answer
  rw [h] at hs
  unfold worker
  split
  rename_i support fields heq
  rw [heq] at hs
  simp only at hs
  subst hs
  simp

set_option maxRecDepth 100000 in
theorem worker_unsupported_sentinels_witness :
    (worker zeroRecord "").Support = false ∧
      ((worker zeroRecord "").Alg = 0 ∧ (worker zeroRecord "").Label = 0 ∧
        (worker zeroRecord "").Ttl = 0 ∧ (worker zeroRecord "").End = 0 ∧
        (worker zeroRecord "").Start = 0 ∧ (worker zeroRecord "").Keytag = 0 ∧
        (worker zeroRecord "").RType = "nil" ∧ (worker zeroRecord "").Signer = "nil") :=
  ⟨by decide, worker_unsupported_sentinels zeroRecord "" (by decide)⟩

theorem rrsig_fields_of_true (answer : String) (fields : List String)
    (h : rrsig answer = (true, fields)) :
    ∃ m, findFrom (.group 0 rrsigRe) none answer.toList = some m ∧
      fields = [capture m.caps 4, capture m.caps 5, capture m.caps 6, capture m.caps 7,
        capture m.caps 8, capture m.caps 9, capture m.caps 10, capture m.caps 11] := by
  cases hf : findFrom (.group 0 rrsigRe) none answer.toList with
  | none =>
    rw [rrsig_of_find_none answer hf] at h
    simp at h
  | some m =>
    rw [rrsig_of_find_some answer m hf] at h
    simp only [Prod.mk.injEq, true_and] at h
    exact ⟨m, rfl, h.symm⟩

theorem worker_of_true (r : Record) (answer : String) (fields : List String)
    (h : rrsig answer = (true, fields)) :
    worker r answer =
      { Rank := r.Rank, Domain := r.Domain, Support := true,
        RType := fields.getD 0 "",
        Alg := (Atoi (fields.getD 1 "")).1,
        Label := (Atoi (fields.getD 2 "")).1,
        Ttl := (Atoi (fields.getD 3 "")).1,
        End := (Atoi (fields.getD 4 "")).1,
        Start := (Atoi (fields.getD 5 "")).1,
        Keytag := (Atoi (fields.getD 6 "")).1,
        Signer := fields.getD 7 "" } := by
  unfold worker
  rw [h]
  rfl

set_option maxRecDepth 100000 in
/-- C9 (counterexample): on a signature line whose algorithm field is the digit
string `99999999999999999999`, `rrsig` finds the record, `Atoi` fails on the
field with a range error, and the `Alg` field that `worker` stores is
9223372036854775807, not 0. -/
theorem worker_coercion_failure_not_zero :
    (rrsig overflowLine).1 = true ∧
      (rrsig overflowLine).2.getD 1 "" = "99999999999999999999" ∧
      (Atoi "99999999999999999999").2 = some NumErr.range ∧
      (worker zeroRecord overflowLine).Alg = 9223372036854775807 ∧
      (worker zeroRecord overflowLine).Alg ≠ 0 := by
  decide

/-- C9 (amended): for every answer in which `rrsig` finds a signature record,
the record built by `worker` has `Support = true`, its string fields are the
first and last extracted strings, and each numeric field is the value that
`Atoi` returns for its extracted string; when `Atoi` fails on one of the six
numeric strings (which can only be a range error, the strings being digits),
the corresponding field is the largest `int`, 2^63 - 1, and the other fields
are populated all the same. -/
theorem worker_coercion_failure_clamps (r : Record) (answer : String) (fields : List String)
    (h : rrsig answer = (true, fields)) :
    (worker r answer).Support = true ∧
      (worker r answer).Rank = r.Rank ∧ (worker r answer).Domain = r.Domain ∧
      (worker r answer).RType = fields.getD 0 "" ∧
      (worker r answer).Signer = fields.getD 7 "" ∧
      (worker r answer).Alg = (Atoi (fields.getD 1 "")).1 ∧
      (worker r answer).Label = (Atoi (fields.getD 2 "")).1 ∧
      (worker r answer).Ttl = (Atoi (fields.getD 3 "")).1 ∧
      (worker r answer).End = (Atoi (fields.getD 4 "")).1 ∧
      (worker r answer).Start = (Atoi (fields.getD 5 "")).1 ∧
      (worker r answer).Keytag = (Atoi (fields.getD 6 "")).1 ∧
      ((Atoi (fields.getD 1 "")).2 ≠ none → (worker r answer).Alg = 2 ^ 63 - 1) ∧
      ((Atoi (fields.getD 2 "")).2 ≠ none → (worker r answer).Label = 2 ^ 63 - 1) ∧
      ((Atoi (fields.getD 3 "")).2 ≠ none → (worker r answer).Ttl = 2 ^ 63 - 1) ∧
      ((Atoi (fields.getD 4 "")).2 ≠ none → (worker r answer).End = 2 ^ 63 - 1) ∧
      ((Atoi (fields.getD 5 "")).2 ≠ none → (worker r answer).Start = 2 ^ 63 - 1) ∧
      ((Atoi (fields.getD 6 "")).2 ≠ none → (worker r answer).Keytag = 2 ^ 63 - 1) := by
  rw [worker_of_true r answer fields h]
  obtain ⟨m, hf, rfl⟩ := rrsig_fields_of_true answer fields h
  obtain ⟨pre, prev1, rest, -, hm⟩ := findFrom_some _ _ _ _ hf
  have key : ∀ i, 5 ≤ i → i ≤ 10 → (Atoi (capture m.caps i)).2 ≠ none →
      (Atoi (capture m.caps i)).1 = 2 ^ 63 - 1 := by
    intro i h5 h10 herr
    obtain ⟨ds, hne, hds, hcap⟩ := rrsigRe_numeric_caps hm i h5 h10
    rw [hcap] at herr ⊢
    rw [Atoi_digits ds hne hds herr]
  simp only [List.getD_cons_zero, List.getD_cons_succ, true_and]
  exact ⟨key 5 (by omega) (by omega), key 6 (by omega) (by omega), key 7 (by omega) (by omega),
    key 8 (by omega) (by omega), key 9 (by omega) (by omega), key 10 (by omega) (by omega)⟩

set_option maxRecDepth 100000 in
theorem worker_coercion_failure_clamps_witness :
    rrsig overflowLine =
        (true, ["A", "99999999999999999999", "2", "3600", "20300101000000", "20300001000000",
          "12345", "example.com."]) ∧
      (Atoi "99999999999999999999").2 ≠ none ∧
      (worker zeroRecord overflowLine).Alg = 2 ^ 63 - 1 :=
  ⟨by decide, by decide,
    (worker_coercion_failure_clamps zeroRecord overflowLine
      ["A", "99999999999999999999", "2", "3600", "20300101000000", "20300001000000",
        "12345", "example.com."] (by decide)).2.2.2.2.2.2.2.2.2.2.2.1
      (by decide)⟩

/-! ## The collection loop -/

theorem set_length_append (pre : List Record) (a x : Record) (l : List Record) :
    (pre ++ a :: l).set pre.length x = pre ++ x :: l := by
  induction pre with
  | nil => rfl
  | cons b pre ih => simp [ih]

/-- The loop stores the received records in arrival order. -/
theorem collect_eq :
    ∀ (k : Nat) (pre chan : List Record), chan.length = k →
      collect k pre.length chan (pre ++ List.replicate k zeroRecord) = some (pre ++ chan) := by
  intro k
  induction k with
  | zero =>
    intro pre chan h
    have : chan = [] := List.length_eq_zero.mp h
    subst this
    simp [collect]
  | succ k ih =>
    intro pre chan h
    cases chan with
    | nil => simp at h
    | cons x chan =>
      simp only [collect, List.replicate_succ, set_length_append]
      have h2 := ih (pre ++ [x]) chan (by simpa using h)
      simp only [List.length_append, List.length_singleton, List.append_assoc,
        List.singleton_append] at h2
      exact h2

theorem work_eq (records arrivals : List Record) (h : arrivals.length = records.length) :
    work records arrivals = some arrivals := by
  have := collect_eq records.length [] arrivals h
  simpa [work] using this

theorem jobResults_length (records : List Record) (answer : Nat → String) :
    (jobResults records answer).length = records.length := by
  simp [jobResults]

theorem jobResults_getElem? (records : List Record) (answer : Nat → String) (i : Nat) :
    (jobResults records answer)[i]? = (records[i]?).map fun r => worker r (answer i) := by
  simp [jobResults, List.getElem?_mapIdx]

/-- C1 (counterexample): with two input entries whose results arrive in the
reverse order, `work` stores at index 0 a record whose `Rank` and `Domain` are
those of input entry 1, not of input entry 0. -/
theorem work_order_not_preserved :
    (jobResults twoEntries fun _ => "").reverse.Perm (jobResults twoEntries fun _ => "") ∧
      ∃ results, work twoEntries (jobResults twoEntries fun _ => "").reverse = some results ∧
        (results[0]?).map Record.Rank = some 2 ∧ (twoEntries[0]?).map Record.Rank = some 1 ∧
        (results[0]?).map Record.Domain = some "second.example" ∧
        (twoEntries[0]?).map Record.Domain = some "first.example" := by
  refine ⟨List.reverse_perm _, (jobResults twoEntries fun _ => "").reverse, ?_, ?_⟩
  · exact work_eq _ _ (by simp [jobResults_length])
  · simp [jobResults, twoEntries, worker_Rank, worker_Domain, List.mapIdx_cons]

/-- C1 (amended): for every input list and every arrival order of the workers'
results, `work` builds the results array in arrival order: it is exactly the
sequence received from the channel, every record in it carries the `Rank` and
`Domain` of the input entry it was probed from, and when the results arrive in
input order the record at index `i` carries the `Rank` and `Domain` of input
entry `i`. -/
theorem work_results_in_arrival_order (records : List Record) (answer : Nat → String)
    (arrivals : List Record) (h : arrivals.Perm (jobResults records answer)) :
    work records arrivals = some arrivals ∧
      (∀ x, x ∈ arrivals → ∃ (i : Nat) (r : Record), records[i]? = some r ∧ x = worker r (answer i) ∧
        x.Rank = r.Rank ∧ x.Domain = r.Domain) ∧
      (arrivals = jobResults records answer → ∀ (i : Nat) (r : Record), records[i]? = some r →
        (arrivals[i]?).map Record.Rank = some r.Rank ∧
        (arrivals[i]?).map Record.Domain = some r.Domain) := by
  refine ⟨work_eq _ _ (by rw [h.length_eq, jobResults_length]), ?_, ?_⟩
  · intro x hx
    have hx2 : x ∈ jobResults records answer := h.mem_iff.mp hx
    obtain ⟨i, hi⟩ := List.mem_iff_getElem?.mp hx2
    rw [jobResults_getElem?] at hi
    cases hr : records[i]? with
    | none => simp [hr] at hi
    | some r =>
      simp only [hr, Option.map_some', Option.some.injEq] at hi
      subst hi
      exact ⟨i, r, hr, rfl, worker_Rank _ _, worker_Domain _ _⟩
  · intro heq i r hr
    subst heq
    rw [jobResults_getElem?, hr]
    simp [worker_Rank, worker_Domain]

theorem work_results_in_arrival_order_witness :
    (jobResults twoEntries fun _ => "").reverse.Perm (jobResults twoEntries fun _ => "") ∧
      work twoEntries (jobResults twoEntries fun _ => "").reverse =
        some (jobResults twoEntries fun _ => "").reverse :=
  ⟨List.reverse_perm _,
    (work_results_in_arrival_order twoEntries (fun _ => "") _ (List.reverse_perm _)).1⟩

theorem jobResults_eq_map (records : List Record) (answer : Nat → String) :
    jobResults records answer = records.enum.map (probe answer) := by
  unfold jobResults
  rw [List.mapIdx_eq_enum_map]
  rfl

theorem coe_cons_eq (a : Record) (l : List Record) :
    ((a :: l : List Record) : Multiset Record) = {a} + (l : Multiset Record) := by
  rw [Multiset.singleton_add, Multiset.cons_coe]

theorem coe_append_singleton (a : Record) (l : List Record) :
    ((l ++ [a] : List Record) : Multiset Record) = (l : Multiset Record) + {a} := by
  rw [← Multiset.coe_add]
  rfl

theorem take_set_succ (l : List Record) (j : Nat) (x : Record) (h : j < l.length) :
    (l.set j x).take (j + 1) = l.take j ++ [x] := by
  induction l generalizing j with
  | nil => simp at h
  | cons a l ih =>
    cases j with
    | zero => simp
    | succ j =>
      simp only [List.set_cons_succ, List.take_succ_cons, List.cons_append, List.cons.injEq,
        true_and]
      exact ih j (by simpa using h)

/-- A step moves one record one stage on: the records of the state stay the
same, `results` keeps its length, and one step less is left. -/
theorem workStep_spec (workers : Nat) (answer : Nat → String) (a : Action) (s t : WorkState)
    (h : workStep workers answer a s = some t) :
    recordsOf answer t = recordsOf answer s ∧ t.results.length = s.results.length ∧
      stepsLeft s = stepsLeft t + 1 := by
  obtain ⟨pending, jobs, inflight, queue, j, results⟩ := s
  cases a with
  | submit =>
    cases pending with
    | nil => simp [workStep] at h
    | cons x p =>
      simp only [workStep, Option.some.injEq] at h
      subst h
      refine ⟨?_, rfl, ?_⟩
      · simp only [recordsOf, List.map_append, List.map_cons, List.map_nil, coe_cons_eq,
          coe_append_singleton]
        abel
      · simp only [stepsLeft, List.length_append, List.length_cons, List.length_nil]
        omega
  | take =>
    cases jobs with
    | nil => simp [workStep] at h
    | cons x js =>
      simp only [workStep] at h
      split at h
      · simp only [Option.some.injEq] at h
        subst h
        refine ⟨?_, rfl, ?_⟩
        · simp only [recordsOf, List.map_append, List.map_cons, List.map_nil, coe_cons_eq,
            coe_append_singleton]
          abel
        · simp only [stepsLeft, List.length_append, List.length_cons, List.length_nil]
          omega
      · cases h
  | finish k =>
    simp only [workStep] at h
    split at h
    · cases h
    · rename_i x rest hdrop
      simp only [Option.some.injEq] at h
      subst h
      have hsplit : inflight = inflight.take k ++ x :: rest := by
        rw [← hdrop, List.take_append_drop]
      refine ⟨?_, rfl, ?_⟩
      · simp only [recordsOf]
        conv_rhs => rw [hsplit]
        simp only [List.map_append, List.map_cons, ← Multiset.coe_add, coe_cons_eq,
          coe_append_singleton]
        abel
      · simp only [stepsLeft]
        conv_lhs => rw [hsplit]
        simp only [List.length_append, List.length_cons, List.length_nil]
        omega
  | receive =>
    cases pending with
    | cons x p => simp [workStep] at h
    | nil =>
      cases queue with
      | nil => simp [workStep] at h
      | cons x q =>
        simp only [workStep] at h
        split at h
        · rename_i hj
          simp only [Option.some.injEq] at h
          subst h
          refine ⟨?_, by simp, ?_⟩
          · simp only [recordsOf, take_set_succ results j x hj, List.map_nil, coe_cons_eq,
              coe_append_singleton]
            abel
          · simp only [stepsLeft, List.length_cons, List.length_nil]
            omega
        · cases h

theorem workRun_spec (workers : Nat) (answer : Nat → String) :
    ∀ (sched : List Action) (s t : WorkState), workRun workers answer sched s = some t →
      recordsOf answer t = recordsOf answer s ∧ t.results.length = s.results.length ∧
        stepsLeft s = stepsLeft t + sched.length := by
  intro sched
  induction sched with
  | nil =>
    intro s t h
    simp only [workRun, Option.some.injEq] at h
    subst h
    exact ⟨rfl, rfl, rfl⟩
  | cons a as ih =>
    intro s t h
    simp only [workRun] at h
    split at h
    · cases h
    · rename_i u hu
      obtain ⟨h1, h2, h3⟩ := workStep_spec workers answer a s u hu
      obtain ⟨k1, k2, k3⟩ := ih u t h
      refine ⟨k1.trans h1, k2.trans h2, ?_⟩
      rw [h3, k3, List.length_cons]
      omega

theorem workRun_append (workers : Nat) (answer : Nat → String) :
    ∀ (s1 s2 : List Action) (s t : WorkState), workRun workers answer s1 s = some t →
      workRun workers answer (s1 ++ s2) s = workRun workers answer s2 t := by
  intro s1
  induction s1 with
  | nil =>
    intro s2 s t h
    simp only [workRun, Option.some.injEq] at h
    subst h
    rfl
  | cons a as ih =>
    intro s2 s t h
    simp only [workRun] at h
    split at h
    · cases h
    · rename_i u hu
      simp only [List.cons_append, workRun, hu]
      exact ih s2 u t h

theorem recordsOf_workInit (records : List Record) (answer : Nat → String) :
    recordsOf answer (workInit records) = (jobResults records answer : Multiset Record) := by
  simp [recordsOf, workInit, jobResults_eq_map]

theorem card_recordsOf (answer : Nat → String) (s : WorkState) (hj : s.j ≤ s.results.length) :
    Multiset.card (recordsOf answer s) =
      s.j + s.job_results.length + s.inflight.length + s.jobs.length + s.pending.length := by
  simp only [recordsOf, Multiset.card_add, Multiset.coe_card, List.length_take,
    List.length_map, Nat.min_eq_left hj]

/-- In a state that `work` reaches, the index of the collection loop is within
`results`. -/
theorem workRun_index_le (workers : Nat) (answer : Nat → String) :
    ∀ (sched : List Action) (s t : WorkState), workRun workers answer sched s = some t →
      s.j ≤ s.results.length → t.j ≤ t.results.length := by
  intro sched
  induction sched with
  | nil =>
    intro s t h hs
    simp only [workRun, Option.some.injEq] at h
    subst h
    exact hs
  | cons a as ih =>
    intro s t h hs
    simp only [workRun] at h
    split at h
    · cases h
    · rename_i u hu
      refine ih u t h ?_
      obtain ⟨pending, jobs, inflight, queue, j, results⟩ := s
      cases a with
      | submit =>
        cases pending with
        | nil => simp [workStep] at hu
        | cons x p =>
          simp only [workStep, Option.some.injEq] at hu
          subst hu
          exact hs
      | take =>
        cases jobs with
        | nil => simp [workStep] at hu
        | cons x js =>
          simp only [workStep] at hu
          split at hu
          · simp only [Option.some.injEq] at hu
            subst hu
            exact hs
          · cases hu
      | finish k =>
        simp only [workStep] at hu
        split at hu
        · cases hu
        · simp only [Option.some.injEq] at hu
          subst hu
          exact hs
      | receive =>
        cases pending with
        | cons x p => simp [workStep] at hu
        | nil =>
          cases queue with
          | nil => simp [workStep] at hu
          | cons x q =>
            simp only [workStep] at hu
            split at hu
            · rename_i hj
              simp only [Option.some.injEq] at hu
              subst hu
              simp only [List.length_set]
              omega
            · cases hu

/-- With at least one worker, a state in which the records add up to the input
and the collection loop is not over has a step it can take. -/
theorem workStep_progress (workers : Nat) (answer : Nat → String) (s : WorkState) (n : Nat)
    (hw : 0 < workers) (hlen : s.results.length = n)
    (hcard : s.j + s.job_results.length + s.inflight.length + s.jobs.length +
      s.pending.length = n)
    (hnot : workDone s = false) :
    ∃ a t, workStep workers answer a s = some t := by
  obtain ⟨pending, jobs, inflight, queue, j, results⟩ := s
  simp only at hlen hcard
  cases pending with
  | cons x p => exact ⟨.submit, _, rfl⟩
  | nil =>
    cases inflight with
    | cons y ys => exact ⟨.finish 0, _, rfl⟩
    | nil =>
      cases jobs with
      | cons x js =>
        exact ⟨.take, ⟨[], js, [x], queue, j, results⟩, by simp [workStep, hw]⟩
      | nil =>
        cases queue with
        | cons x q =>
          have hj : j < results.length := by
            simp only [List.length_cons, List.length_nil] at hcard
            omega
          exact ⟨.receive, ⟨[], [], [], q, j + 1, results.set j x⟩, by simp [workStep, hj]⟩
        | nil =>
          exfalso
          simp only [List.length_nil, Nat.add_zero] at hcard
          simp [workDone, hcard, hlen] at hnot

/-- With at least one worker, every state in which the records add up to the
input can be run on to the end of the collection loop. -/
theorem workRun_completes (workers : Nat) (answer : Nat → String) (hw : 0 < workers) :
    ∀ (m : Nat) (s : WorkState), stepsLeft s = m → s.j ≤ s.results.length →
      Multiset.card (recordsOf answer s) = s.results.length →
      ∃ sched t, workRun workers answer sched s = some t ∧ workDone t = true := by
  intro m
  induction m with
  | zero =>
    intro s hm hj hcard
    by_cases hd : workDone s = true
    · exact ⟨[], s, rfl, hd⟩
    · exfalso
      rw [card_recordsOf answer s hj] at hcard
      obtain ⟨a, t, ht⟩ := workStep_progress workers answer s s.results.length hw rfl hcard
        (by simpa using hd)
      have := (workStep_spec workers answer a s t ht).2.2
      omega
  | succ m ih =>
    intro s hm hj hcard
    by_cases hd : workDone s = true
    · exact ⟨[], s, rfl, hd⟩
    · have hcard2 := hcard
      rw [card_recordsOf answer s hj] at hcard2
      obtain ⟨a, t, ht⟩ := workStep_progress workers answer s s.results.length hw rfl hcard2
        (by simpa using hd)
      obtain ⟨h1, h2, h3⟩ := workStep_spec workers answer a s t ht
      have hjt : t.j ≤ t.results.length :=
        workRun_index_le workers answer [a] s t (by simp [workRun, ht]) hj
      obtain ⟨sched, u, hu, hdone⟩ := ih t (by omega) hjt (by rw [h1, h2, hcard])
      exact ⟨a :: sched, u, by simp [workRun, ht, hu], hdone⟩

/-- C6: for every input list, every number of workers and every interleaving
of the steps of the main goroutine and the workers, `work` takes at most four
steps per input entry; once the collection loop is over, the results array has
the length of the input list and is a permutation of the list obtained by
probing each input entry once, with nothing left in the channels; with at
least one worker, every state reached can be run on until the collection loop
is over (no result is ever missing); and the result of probing an entry
carries that entry's `Rank` and `Domain`, whatever the answer text was. -/
theorem work_one_result_per_entry (workers : Nat) (records : List Record)
    (answer : Nat → String) (sched : List Action) (s : WorkState)
    (h : workRun workers answer sched (workInit records) = some s) :
    sched.length ≤ 4 * records.length ∧
      (workDone s = true →
        s.results.length = records.length ∧ s.results.Perm (jobResults records answer) ∧
          s.job_results = [] ∧ s.inflight = [] ∧ s.jobs = [] ∧
          sched.length = 4 * records.length) ∧
      (0 < workers →
        ∃ rest t, workRun workers answer (sched ++ rest) (workInit records) = some t ∧
          workDone t = true) ∧
      ∀ (i : Nat) (r : Record), records[i]? = some r →
        ((jobResults records answer)[i]?).map Record.Rank = some r.Rank ∧
        ((jobResults records answer)[i]?).map Record.Domain = some r.Domain := by
  obtain ⟨hrec, hlen, hsteps⟩ := workRun_spec workers answer sched _ s h
  have hj : s.j ≤ s.results.length :=
    workRun_index_le workers answer sched _ s h (by simp [workInit])
  have hlen0 : (workInit records).results.length = records.length := by simp [workInit]
  have hsteps0 : stepsLeft (workInit records) = 4 * records.length := by
    simp [stepsLeft, workInit]
  rw [recordsOf_workInit] at hrec
  have hcard : Multiset.card (recordsOf answer s) = records.length := by
    rw [hrec, Multiset.coe_card, jobResults_length]
  refine ⟨by omega, ?_, ?_, ?_⟩
  · intro hd
    simp only [workDone, Bool.and_eq_true, List.isEmpty_iff, decide_eq_true_eq] at hd
    have hcard2 := hcard
    rw [card_recordsOf answer s hj, hd.1, hd.2, hlen, hlen0] at hcard2
    have hq : s.job_results = [] := List.length_eq_zero.mp (by omega)
    have hi : s.inflight = [] := List.length_eq_zero.mp (by omega)
    have hjobs : s.jobs = [] := List.length_eq_zero.mp (by omega)
    refine ⟨by rw [hlen, hlen0], ?_, hq, hi, hjobs, ?_⟩
    · rw [← Multiset.coe_eq_coe, ← hrec]
      simp [recordsOf, hd.1, hd.2, hq, hi, hjobs]
    · have : stepsLeft s = 0 := by simp [stepsLeft, hd.1, hq, hi, hjobs]
      omega
  · intro hw
    obtain ⟨rest, t, ht, hdone⟩ := workRun_completes workers answer hw (stepsLeft s) s rfl hj
      (by rw [hcard, hlen, hlen0])
    exact ⟨rest, t, by rw [workRun_append workers answer sched rest _ s h]; exact ht, hdone⟩
  · intro i r hr
    rw [jobResults_getElem?, hr]
    simp [worker_Rank, worker_Domain]

set_option maxRecDepth 100000 in
theorem work_one_result_per_entry_witness :
    workRun 2 (fun _ => "") twoSchedule (workInit twoEntries) =
        some { pending := [], jobs := [], inflight := [], job_results := [], j := 2,
               results := (jobResults twoEntries fun _ => "").reverse } ∧
      ((jobResults twoEntries fun _ => "").reverse.length = twoEntries.length ∧
        (jobResults twoEntries fun _ => "").reverse.Perm (jobResults twoEntries fun _ => "")) :=
  ⟨by decide,
    ⟨((work_one_result_per_entry 2 twoEntries (fun _ => "") twoSchedule
        { pending := [], jobs := [], inflight := [], job_results := [], j := 2,
          results := (jobResults twoEntries fun _ => "").reverse } (by decide)).2.1
        (by decide)).1,
     ((work_one_result_per_entry 2 twoEntries (fun _ => "") twoSchedule
        { pending := [], jobs := [], inflight := [], job_results := [], j := 2,
          results := (jobResults twoEntries fun _ => "").reverse } (by decide)).2.1
        (by decide)).2.1⟩⟩

/-! ## Statistics -/

theorem countSupported_eq (results : List Record) :
    ∀ n, countSupported results n = n + results.countP fun r => r.Support := by
  induction results with
  | nil => intro n; simp [countSupported]
  | cons r rs ih =>
    intro n
    simp only [countSupported, ih, List.countP_cons]
    cases r.Support
    · simp
    · simp; omega

theorem F64.round_ne_nan (q : ℚ) : F64.round q ≠ F64.nan := by
  unfold F64.round
  split_ifs <;> intro h <;> cases h

/-- Conversion of an integer below 2^53 to `float64` is exact. -/
theorem F64.ofNat_exact (n : Nat) (hn : n < 2 ^ 53) : F64.ofNat n = F64.num n := by
  unfold F64.ofNat F64.round
  by_cases h0 : (n : ℚ) = 0
  · simp [h0]
  · have hpos : 0 < n := by
      rcases Nat.eq_zero_or_pos n with h | h
      · exact absurd (by simp [h]) h0
      · exact h
    have hlog : Nat.log 2 n < 53 := (Nat.lt_pow_iff_log_lt (by norm_num) (by omega)).mp hn
    obtain ⟨k, hk⟩ : ∃ k : ℕ, k + Nat.log 2 n = 52 := ⟨52 - Nat.log 2 n, by omega⟩
    have habs : |(n : ℚ)| = n := abs_of_nonneg (by positivity)
    have he : max (Int.log 2 (n : ℚ) - 52) (-1074) = -(k : ℤ) := by
      rw [Int.log_natCast]
      omega
    have hm : (n : ℚ) / (2 : ℚ) ^ (-(k : ℤ)) = ((n * 2 ^ k : ℕ) : ℚ) := by
      rw [zpow_neg, zpow_natCast]
      push_cast
      field_simp
    have hv : (((n * 2 ^ k : ℕ) : ℤ) : ℚ) * (2 : ℚ) ^ (-(k : ℤ)) = n := by
      rw [zpow_neg, zpow_natCast]
      push_cast
      field_simp
    have hmag : F64.roundMag (n : ℚ) = n := by
      unfold F64.roundMag
      simp only [he, hm, Int.floor_natCast]
      rw [if_pos (by simp)]
      exact hv
    have hlt : ¬ ((2 : ℚ) ^ (1024 : ℕ) ≤ (n : ℚ)) := by
      rw [not_le]
      have h1 : (n : ℚ) < 2 ^ 53 := by exact_mod_cast hn
      have h2 : (2 : ℚ) ^ 53 ≤ 2 ^ 1024 := by norm_num
      exact lt_of_lt_of_le h1 h2
    have hnn : ¬ ((n : ℚ) < 0) := by
      rw [not_lt]
      positivity
    simp only [h0, if_false, habs, hmag, hlt, hnn]

theorem F64.mul_hundred_ne_nan (x : F64) (hx : x ≠ F64.nan) :
    F64.mul x (F64.num 100) ≠ F64.nan := by
  cases x with
  | nan => exact absurd rfl hx
  | inf s =>
    simp only [F64.mul]
    rw [if_neg (by norm_num)]
    intro h
    cases h
  | num a => exact F64.round_ne_nan _

theorem printStats_nil_rate : (printStats []).rate = F64.nan := by
  simp [printStats, countSupported, F64.ofNat, F64.round, F64.div, F64.mul]

/-- C10 (counterexample): for the empty result list the rate that `printStats`
computes is not 0 but NaN, the `float64` value of `0 / 0 * 100`. -/
theorem printStats_empty_rate_is_nan :
    (printStats []).total = 0 ∧ (printStats []).rate = F64.nan ∧
      (printStats []).rate ≠ F64.num 0 := by
  have h : (printStats []).rate = F64.nan := printStats_nil_rate
  refine ⟨rfl, h, ?_⟩
  rw [h]
  intro hc
  cases hc

/-- C10 (amended): for every result list, `total` is the number of results,
`supported` is the number of results with `Support = true`, and the rate is
`float64(supported) / float64(total) * 100` evaluated in `float64`
arithmetic.  For a non-empty list (of fewer than 2^53 records, so that the
conversions are exact) this is the quotient `supported / total` rounded to
`float64`, times 100, and it is not NaN; for the empty list it is
`0 / 0 * 100`, which is NaN (no crash). -/
theorem printStats_spec (results : List Record) :
    (printStats results).total = results.length ∧
      (printStats results).supported = results.countP (fun r => r.Support) ∧
      (printStats results).rate =
        F64.mul (F64.div (F64.ofNat (results.countP fun r => r.Support))
          (F64.ofNat results.length)) (F64.ofNat 100) ∧
      (results ≠ [] → results.length < 2 ^ 53 →
        (printStats results).rate =
            F64.mul (F64.round (((results.countP fun r => r.Support) : ℚ) / (results.length : ℚ)))
              (F64.num 100) ∧
          (printStats results).rate ≠ F64.nan) ∧
      (results = [] → (printStats results).rate = F64.nan) := by
  have hrate : (printStats results).rate =
      F64.mul (F64.div (F64.ofNat (results.countP fun r => r.Support))
        (F64.ofNat results.length)) (F64.ofNat 100) := by
    simp [printStats, countSupported_eq]
  refine ⟨rfl, ?_, hrate, ?_, ?_⟩
  · simp [printStats, countSupported_eq]
  · intro hne hlen
    have hle : results.countP (fun r => r.Support) ≤ results.length := List.countP_le_length _
    have hpos : 0 < results.length := List.length_pos.mpr hne
    have hq : ¬ ((results.length : ℚ) = 0) := by
      intro h0
      have : results.length = 0 := by exact_mod_cast h0
      omega
    have hval : (printStats results).rate =
        F64.mul (F64.round (((results.countP fun r => r.Support) : ℚ) / (results.length : ℚ)))
          (F64.num 100) := by
      rw [hrate, F64.ofNat_exact _ (by omega), F64.ofNat_exact _ hlen,
        F64.ofNat_exact 100 (by norm_num)]
      simp only [F64.div, hq, if_false, Nat.cast_ofNat]
    refine ⟨hval, ?_⟩
    rw [hval]
    exact F64.mul_hundred_ne_nan _ (F64.round_ne_nan _)
  · intro h
    subst h
    exact printStats_nil_rate

theorem printStats_spec_witness :
    threeResults ≠ [] ∧ threeResults.length < 2 ^ 53 ∧
      (printStats threeResults).total = 3 ∧ (printStats threeResults).supported = 1 ∧
      (printStats threeResults).rate =
        F64.mul (F64.round (((threeResults.countP fun r => r.Support) : ℚ) /
          (threeResults.length : ℚ))) (F64.num 100) ∧
      (printStats threeResults).rate ≠ F64.nan ∧
      (printStats []).rate = F64.nan :=
  ⟨by decide, by decide, (printStats_spec threeResults).1, (printStats_spec threeResults).2.1,
    ((printStats_spec threeResults).2.2.2.1 (by decide) (by decide)).1,
    ((printStats_spec threeResults).2.2.2.1 (by decide) (by decide)).2,
    (printStats_spec []).2.2.2.2 rfl⟩

end DnssecStats
